import Mathlib

/-!
Shallow embedding of the two LRU caches of this repository:
`Cache` (count-bounded, `src/lru.go`) and `SegmentCache` (weight-bounded,
`src/lru_segment.go`).

Modelling conventions:
* Go `interface{}` values are `Option α` (`none` is Go `nil`);
* Go `int` / `int64` are `Int`;
* the `container/list` recency queue is a `List` whose head is the queue
  front (most recently used); the queue stores, for each element, exactly
  the entry fields the code reads through the element pointer (the key, and
  for `SegmentCache` also the entry weight);
* the Go `map[string]*cacheEntry` is an association list; Go maps have
  unique keys, so map deletion is `eraseKey` (drop every binding of the
  key) and in-place entry mutation is a keyed map over the list;
* the eviction callback is modelled by returning the list of keys it is
  invoked with, in invocation order;
* `SegmentCache.evict` dereferences `q.Back() = nil` when the queue empties
  while `usedCapacity > capacity` (possible for negative capacity); this Go
  panic is modelled by `Option.none`.  `Cache.evict` removes at most one
  element and is only called right after a push, so it is modelled as a
  total function whose impossible branch is tracked by `Cache.evictPanics`.
-/

namespace LRU

/-- Go map lookup `lru.cache[key]` on an association list. -/
def lookup {β : Type} : List (String × β) → String → Option β
  | [], _ => none
  | e :: rest, k => if e.1 = k then some e.2 else lookup rest k

/-- Go map deletion `delete(lru.cache, key)`: drop every binding of `k`
(Go maps bind each key at most once). -/
def eraseKey {β : Type} : List (String × β) → String → List (String × β)
  | [], _ => []
  | e :: rest, k => if e.1 = k then eraseKey rest k else e :: eraseKey rest k

/-- In-place mutation of the entry bound to `k` through the pointer shared
by map and queue: apply `f` to the value bound to `k`. -/
def mapEntry {β : Type} (c : List (String × β)) (k : String) (f : β → β) :
    List (String × β) :=
  c.map (fun e => if e.1 = k then (e.1, f e.2) else e)

/-! ## Count-bounded cache, `src/lru.go` -/

/-- `cacheEntry` of `src/lru.go` (the key is the association-list key; the
`position` pointer is represented by the key's occurrence in the queue). -/
structure cacheEntry (α : Type) where
  data : Option α
  pinned : Bool
  deriving DecidableEq

/-- In-place `e.data = data` on the entry bound to `k`. -/
def setData {α : Type} (c : List (String × cacheEntry α)) (k : String) (d : Option α) :
    List (String × cacheEntry α) :=
  mapEntry c k (fun v => { v with data := d })

/-- In-place `e.pinned = b` on the entry bound to `k`. -/
def setPinned {α : Type} (c : List (String × cacheEntry α)) (k : String) (b : Bool) :
    List (String × cacheEntry α) :=
  mapEntry c k (fun v => { v with pinned := b })

/-- `list.MoveToFront(e.position)`: move the element holding `k` to the
front; Go's `MoveToFront` leaves the list unchanged when the element is not
in it. -/
def moveToFront (q : List String) (k : String) : List String :=
  if k ∈ q then k :: q.erase k else q

/-- `Cache` of `src/lru.go` (the callback is modelled by the key lists the
operations return; the mutex is irrelevant to sequential behaviour). -/
structure Cache (α : Type) where
  size : Int
  cache : List (String × cacheEntry α)
  q : List String
  deriving DecidableEq

/-- `NewCache(size, evictedCallback)`, `src/lru.go` lines 226-234: the size
is stored as given, unvalidated; map and queue start empty. -/
def NewCache (α : Type) (size : Int) : Cache α :=
  { size := size, cache := [], q := [] }

/-- `Cache.Len`, `src/lru.go` lines 238-240. -/
def Cache.Len {α : Type} (s : Cache α) : Nat :=
  s.cache.length

/-- `Cache.Size`, `src/lru.go` lines 243-245. -/
def Cache.Size {α : Type} (s : Cache α) : Int :=
  s.size

/-- `Cache.Get`, `src/lru.go` lines 249-259. -/
def Cache.Get {α : Type} (s : Cache α) (k : String) : Cache α × (Option α × Bool) :=
  match lookup s.cache k with
  | some e =>
    (if e.pinned then s else { s with q := moveToFront s.q k }, (e.data, true))
  | none => (s, (none, false))

/-- `Cache.HasKey`, `src/lru.go` lines 262-265. -/
def Cache.HasKey {α : Type} (s : Cache α) (k : String) : Bool :=
  (lookup s.cache k).isSome

/-- `Cache.evict`, `src/lru.go` lines 326-334: a single conditional step,
removing the queue tail, deleting it from the map and invoking the callback
with its key.  The `none` branch of `getLast?` is the Go nil-dereference
panic; `Cache.evictPanics` names it, and it is unreachable from the two
call sites because both push an element first. -/
def Cache.evict {α : Type} (s : Cache α) : Cache α × List String :=
  if s.size < (s.q.length : Int) then
    match s.q.getLast? with
    | some bk => ({ s with cache := eraseKey s.cache bk, q := s.q.dropLast }, [bk])
    | none => (s, [])
  else (s, [])

/-- The state in which Go's `Cache.evict` would dereference `q.Back() = nil`. -/
def Cache.evictPanics {α : Type} (s : Cache α) : Prop :=
  s.size < (s.q.length : Int) ∧ s.q = []

/-- `Cache.Add`, `src/lru.go` lines 269-286. -/
def Cache.Add {α : Type} (s : Cache α) (k : String) (d : Option α) : Cache α × List String :=
  match lookup s.cache k with
  | some e =>
    (if e.pinned then { s with cache := setData s.cache k d }
     else { s with cache := setData s.cache k d, q := moveToFront s.q k }, [])
  | none =>
    Cache.evict { s with cache := (k, { data := d, pinned := false }) :: s.cache, q := k :: s.q }

/-- `Cache.Pin`, `src/lru.go` lines 290-298. -/
def Cache.Pin {α : Type} (s : Cache α) (k : String) : Cache α :=
  match lookup s.cache k with
  | some e =>
    if e.pinned then s
    else { s with cache := setPinned s.cache k true, q := s.q.erase k }
  | none => s

/-- `Cache.Unpin`, `src/lru.go` lines 302-310. -/
def Cache.Unpin {α : Type} (s : Cache α) (k : String) : Cache α × List String :=
  match lookup s.cache k with
  | some e =>
    if e.pinned then
      Cache.evict { s with cache := setPinned s.cache k false, q := k :: s.q }
    else (s, [])
  | none => (s, [])

/-- `Cache.IsPinned`, `src/lru.go` lines 313-318: the only operation with
an error result; the state component records that it does not mutate. -/
def Cache.IsPinned {α : Type} (s : Cache α) (k : String) : Cache α × Except String Bool :=
  match lookup s.cache k with
  | some e => (s, Except.ok e.pinned)
  | none => (s, Except.error (k ++ ": not in cache"))

/-- The state-mutating public operations of `Cache` (`Len`, `Size`,
`HasKey`, `IsPinned` and `PrintStats` read the state without changing it). -/
inductive CacheOp (α : Type) where
  | addOp (k : String) (d : Option α)
  | getOp (k : String)
  | pinOp (k : String)
  | unpinOp (k : String)
  deriving DecidableEq

/-- One public call, paired with the keys the eviction callback receives. -/
def Cache.step {α : Type} (s : Cache α) : CacheOp α → Cache α × List String
  | .addOp k d => Cache.Add s k d
  | .getOp k => ((Cache.Get s k).1, [])
  | .pinOp k => (Cache.Pin s k, [])
  | .unpinOp k => Cache.Unpin s k

/-- The state after a sequence of public calls on a fresh cache. -/
def runCache (α : Type) (size : Int) (ops : List (CacheOp α)) : Cache α :=
  ops.foldl (fun s op => (Cache.step s op).1) (NewCache α size)

/-! ## Weight-bounded cache, `src/lru_segment.go` -/

/-- `cacheSegmentEntry` of `src/lru_segment.go` (key as association-list
key, `size` is the entry weight). -/
structure cacheSegmentEntry (α : Type) where
  data : Option α
  size : Int
  deriving DecidableEq

/-- In-place `e.data = data` on the segment entry bound to `k`. -/
def segSetData {α : Type} (c : List (String × cacheSegmentEntry α)) (k : String)
    (d : Option α) : List (String × cacheSegmentEntry α) :=
  mapEntry c k (fun v => { v with data := d })

/-- `list.MoveToFront` for the segment queue, whose elements carry the
fields the code reads from the entry: `(key, size)`. -/
def segMoveToFront (q : List (String × Int)) (k : String) : List (String × Int) :=
  match q.find? (fun p => p.1 == k) with
  | some p => p :: q.erase p
  | none => q

/-- `SegmentCache` of `src/lru_segment.go` (callback modelled by returned
key lists; mutex irrelevant to sequential behaviour). -/
structure SegmentCache (α : Type) where
  capacity : Int
  usedCapacity : Int
  cache : List (String × cacheSegmentEntry α)
  q : List (String × Int)
  deriving DecidableEq

/-- `NewSegmentCache(capacity, evictedCallback)`, `src/lru_segment.go`
lines 48-57: capacity stored as given, `usedCapacity = 0`, empty map and
queue. -/
def NewSegmentCache (α : Type) (capacity : Int) : SegmentCache α :=
  { capacity := capacity, usedCapacity := 0, cache := [], q := [] }

/-- `SegmentCache.Len`, `src/lru_segment.go` lines 60-65. -/
def SegmentCache.Len {α : Type} (s : SegmentCache α) : Nat :=
  s.cache.length

/-- `SegmentCache.Capacity`, `src/lru_segment.go` lines 68-73. -/
def SegmentCache.Capacity {α : Type} (s : SegmentCache α) : Int :=
  s.capacity

/-- `SegmentCache.UsedCapacity`, `src/lru_segment.go` lines 76-81. -/
def SegmentCache.UsedCapacity {α : Type} (s : SegmentCache α) : Int :=
  s.usedCapacity

/-- `SegmentCache.Get`, `src/lru_segment.go` lines 85-95: a present key is
always moved to the front (there is no pinning in this cache). -/
def SegmentCache.Get {α : Type} (s : SegmentCache α) (k : String) :
    SegmentCache α × (Option α × Bool) :=
  match lookup s.cache k with
  | some e => ({ s with q := segMoveToFront s.q k }, (e.data, true))
  | none => (s, (none, false))

/-- `SegmentCache.HasKey`, `src/lru_segment.go` lines 98-104. -/
def SegmentCache.HasKey {α : Type} (s : SegmentCache α) (k : String) : Bool :=
  (lookup s.cache k).isSome

/-- The eviction loop of `SegmentCache.evict` (`src/lru_segment.go` lines
138-145), running on the reversed queue so that the Go `q.Remove(q.Back())`
is the head of `rq`: while `usedCapacity > capacity`, pop the tail entry,
subtract its weight, delete its key from the map and record the callback
invocation.  `none` is the Go panic on `q.Back() = nil`. -/
def segEvictAux {α : Type} (cap : Int) :
    List (String × cacheSegmentEntry α) → Int → List (String × Int) →
      Option (Int × List (String × Int) × List (String × cacheSegmentEntry α) × List String)
  | c, used, [] => if cap < used then none else some (used, [], c, [])
  | c, used, p :: rest =>
    if cap < used then
      match segEvictAux cap (eraseKey c p.1) (used - p.2) rest with
      | some (u, rq, c2, ks) => some (u, rq, c2, p.1 :: ks)
      | none => none
    else some (used, p :: rest, c, [])

/-- `SegmentCache.evict`, `src/lru_segment.go` lines 136-149. -/
def SegmentCache.evict {α : Type} (s : SegmentCache α) :
    Option (SegmentCache α × List String) :=
  match segEvictAux s.capacity s.cache s.usedCapacity s.q.reverse with
  | some (u, rq, c, ks) =>
    some ({ s with usedCapacity := u, cache := c, q := rq.reverse }, ks)
  | none => none

/-- `SegmentCache.Add`, `src/lru_segment.go` lines 108-125: an existing key
is moved to the front with its data replaced (weight and `usedCapacity`
untouched, no eviction); a new key is pushed at the front, its weight added
to `usedCapacity`, and then the eviction loop runs. -/
def SegmentCache.Add {α : Type} (s : SegmentCache α) (k : String) (d : Option α)
    (w : Int) : Option (SegmentCache α × List String) :=
  match lookup s.cache k with
  | some _ =>
    some ({ s with cache := segSetData s.cache k d, q := segMoveToFront s.q k }, [])
  | none =>
    SegmentCache.evict
      { s with cache := (k, { data := d, size := w }) :: s.cache,
               usedCapacity := s.usedCapacity + w,
               q := (k, w) :: s.q }

/-- The state-mutating public operations of `SegmentCache` (`Len`,
`Capacity`, `UsedCapacity`, `HasKey` and `PrintStats` read the state
without changing it). -/
inductive SegOp (α : Type) where
  | addOp (k : String) (d : Option α) (w : Int)
  | getOp (k : String)
  deriving DecidableEq

/-- One public call, paired with the callback keys; `none` is a panic. -/
def SegmentCache.step {α : Type} (s : SegmentCache α) :
    SegOp α → Option (SegmentCache α × List String)
  | .addOp k d w => SegmentCache.Add s k d w
  | .getOp k => some ((SegmentCache.Get s k).1, [])

/-- Every weight handed to `Add` in the sequence is nonnegative. -/
def SegOp.wf {α : Type} : SegOp α → Prop
  | .addOp _ _ w => 0 ≤ w
  | .getOp _ => True

instance segOp_wf_decidable {α : Type} (op : SegOp α) : Decidable op.wf := by
  cases op with
  | addOp k d w => exact (inferInstance : Decidable (0 ≤ w))
  | getOp k => exact (inferInstance : Decidable True)

/-- The state after a sequence of public calls on a fresh segment cache
(`none` as soon as one call panics). -/
def segRunStep {α : Type} (os : Option (SegmentCache α)) (op : SegOp α) :
    Option (SegmentCache α) :=
  os.bind (fun s => (SegmentCache.step s op).map Prod.fst)

def runSeg (α : Type) (capacity : Int) (ops : List (SegOp α)) :
    Option (SegmentCache α) :=
  ops.foldl segRunStep (some (NewSegmentCache α capacity))

/-- The `(key, weight)` view of a segment entry: the fields the eviction
loop reads from a queue element. -/
def segKS {α : Type} (e : String × cacheSegmentEntry α) : String × Int :=
  (e.1, e.2.size)

/-- Keys of the unpinned entries of a count-bounded cache index, in index
order: the entries that must correspond one-to-one to the recency queue. -/
def unpinnedKeys {α : Type} (c : List (String × cacheEntry α)) : List String :=
  (c.filter (fun e => !e.2.pinned)).map Prod.fst

/-- Keys of the pinned entries of a count-bounded cache index. -/
def pinnedKeys {α : Type} (c : List (String × cacheEntry α)) : List String :=
  (c.filter (fun e => e.2.pinned)).map Prod.fst

/-- Representation invariant of `Cache`, holding in every reachable state:
unique index keys, the queue is (up to order) exactly the unpinned index
keys, and the queue never exceeds `max size 0` elements. -/
structure CacheInv {α : Type} (s : Cache α) : Prop where
  nodup : (s.cache.map Prod.fst).Nodup
  perm : s.q.Perm (unpinnedKeys s.cache)
  len : (s.q.length : Int) ≤ max s.size 0

/-- Representation invariant of `SegmentCache`, holding in every reachable
state under nonnegative capacity and weights: unique index keys, index
entries in bijection with queue elements (key and weight agree),
`usedCapacity` is the total queued weight, weights are nonnegative, and the
weight bound holds. -/
structure SegInv {α : Type} (s : SegmentCache α) : Prop where
  nodup : (s.cache.map Prod.fst).Nodup
  perm : (s.cache.map segKS).Perm s.q
  used : s.usedCapacity = (s.q.map Prod.snd).sum
  wnn : ∀ p ∈ s.q, 0 ≤ p.2
  bounded : s.usedCapacity ≤ s.capacity
  capnn : 0 ≤ s.capacity

/-- Modelled from the spec (C2): the claimed eviction algorithm of the
count-bounded cache — "while the recency queue length exceeds `size`,
remove the tail entry, delete it from the index, and invoke the eviction
callback with its key".  Runs on the reversed queue; compare with
`Cache.evict`, the single conditional step the code actually performs. -/
def cacheEvictLoopAux {α : Type} (size : Int) :
    List String → List (String × cacheEntry α) → List String × List (String × cacheEntry α) × List String
  | [], c => ([], c, [])
  | b :: rest, c =>
    if size < ((rest.length : Int) + 1) then
      let r := cacheEvictLoopAux size rest (eraseKey c b)
      (r.1, r.2.1, b :: r.2.2)
    else (b :: rest, c, [])

/-- Modelled from the spec (C2): the claimed loop form of count-bounded
eviction, as a whole-state transformer. -/
def cacheEvictLoop {α : Type} (s : Cache α) : Cache α × List String :=
  match cacheEvictLoopAux s.size s.q.reverse s.cache with
  | (rq, c, ks) => ({ s with cache := c, q := rq.reverse }, ks)

/-! ## Basic facts about the association-list primitives -/

theorem lookup_eq_none_iff {β : Type} (c : List (String × β)) (k : String) :
    lookup c k = none ↔ k ∉ c.map Prod.fst := by
  induction c with
  | nil => simp [lookup]
  | cons e rest ih =>
    by_cases h : e.1 = k <;> simp [lookup, h, ih, Ne.symm, eq_comm]

theorem lookup_mem {β : Type} {c : List (String × β)} {k : String} {v : β}
    (h : lookup c k = some v) : (k, v) ∈ c := by
  induction c with
  | nil => simp [lookup] at h
  | cons e rest ih =>
    by_cases he : e.1 = k
    · simp [lookup, he] at h
      subst he h
      exact List.mem_cons_self _ _
    · simp [lookup, he] at h
      exact List.mem_cons_of_mem _ (ih h)

theorem lookup_of_mem_nodup {β : Type} {c : List (String × β)} {k : String} {v : β}
    (hnd : (c.map Prod.fst).Nodup) (h : (k, v) ∈ c) : lookup c k = some v := by
  induction c with
  | nil => simp at h
  | cons e rest ih =>
    rw [List.map_cons, List.nodup_cons] at hnd
    rcases List.mem_cons.1 h with h1 | h1
    · rw [← h1]
      simp [lookup]
    · have hk : k ∈ rest.map Prod.fst := List.mem_map_of_mem Prod.fst h1
      have hne : e.1 ≠ k := fun he => hnd.1 (he ▸ hk)
      simp [lookup, hne, ih hnd.2 h1]

theorem eraseKey_sublist {β : Type} (c : List (String × β)) (k : String) :
    List.Sublist (eraseKey c k) c := by
  induction c with
  | nil => simp [eraseKey]
  | cons e rest ih =>
    by_cases h : e.1 = k
    · simp only [eraseKey, if_pos h]
      exact ih.cons _
    · simp only [eraseKey, if_neg h]
      exact ih.cons₂ _

theorem eraseKey_of_not_mem {β : Type} {c : List (String × β)} {k : String}
    (h : k ∉ c.map Prod.fst) : eraseKey c k = c := by
  induction c with
  | nil => rfl
  | cons e rest ih =>
    rw [List.map_cons] at h
    have h1 : e.1 ≠ k := fun he => h (by rw [he]; exact List.mem_cons_self _ _)
    have h2 : k ∉ rest.map Prod.fst := fun hm => h (List.mem_cons_of_mem _ hm)
    simp only [eraseKey, if_neg h1, ih h2]

theorem mem_map_fst_eraseKey {β : Type} {c : List (String × β)} {k k2 : String}
    (h : k2 ∈ (eraseKey c k).map Prod.fst) : k2 ∈ c.map Prod.fst ∧ k2 ≠ k := by
  induction c with
  | nil => simp [eraseKey] at h
  | cons e rest ih =>
    by_cases he : e.1 = k
    · simp only [eraseKey, if_pos he] at h
      rcases ih h with ⟨h1, h2⟩
      exact ⟨by simp [h1], h2⟩
    · simp only [eraseKey, if_neg he, List.map_cons, List.mem_cons] at h
      rcases h with h1 | h1
      · exact ⟨by simp [h1], h1 ▸ he⟩
      · rcases ih h1 with ⟨h2, h3⟩
        exact ⟨by simp [h2], h3⟩

theorem lookup_eraseKey_ne {β : Type} (c : List (String × β)) {k k2 : String}
    (h : k2 ≠ k) : lookup (eraseKey c k) k2 = lookup c k2 := by
  induction c with
  | nil => rfl
  | cons e rest ih =>
    by_cases he : e.1 = k
    · have hne : e.1 ≠ k2 := by rw [he]; exact fun hh => h hh.symm
      simp only [eraseKey, if_pos he, lookup, if_neg hne, ih]
    · by_cases he2 : e.1 = k2
      · simp only [eraseKey, if_neg he, lookup, if_pos he2]
      · simp only [eraseKey, if_neg he, lookup, if_neg he2, ih]

theorem eraseKey_eq_erase {β : Type} [DecidableEq β] {c : List (String × β)}
    {p : String × β} (hnd : (c.map Prod.fst).Nodup) (hp : p ∈ c) :
    eraseKey c p.1 = c.erase p := by
  induction c with
  | nil => simp at hp
  | cons e rest ih =>
    rw [List.map_cons, List.nodup_cons] at hnd
    rcases List.mem_cons.1 hp with h1 | h1
    · rw [h1, List.erase_cons_head]
      have hrest : e.1 ∉ rest.map Prod.fst := hnd.1
      simp [eraseKey, eraseKey_of_not_mem hrest]
    · have hkey : p.1 ∈ rest.map Prod.fst := List.mem_map_of_mem Prod.fst h1
      have hne : e.1 ≠ p.1 := fun hh => hnd.1 (hh ▸ hkey)
      have hne2 : ¬(e == p) = true := by
        simp only [beq_iff_eq]
        exact fun hh => hne (congrArg Prod.fst hh)
      rw [List.erase_cons_tail hne2]
      simp only [eraseKey, if_neg hne]
      rw [ih hnd.2 h1]

theorem map_fst_mapEntry {β : Type} (c : List (String × β)) (k : String) (f : β → β) :
    (mapEntry c k f).map Prod.fst = c.map Prod.fst := by
  induction c with
  | nil => rfl
  | cons e rest ih =>
    by_cases h : e.1 = k <;> simp [mapEntry, h] at ih ⊢ <;> exact ih

theorem lookup_mapEntry_self {β : Type} {c : List (String × β)} {k : String} {v : β}
    (h : lookup c k = some v) (f : β → β) : lookup (mapEntry c k f) k = some (f v) := by
  induction c with
  | nil => simp [lookup] at h
  | cons e rest ih =>
    by_cases he : e.1 = k
    · have h2 : e.2 = v := by
        rw [lookup, if_pos he] at h
        exact Option.some.inj h
      simp only [mapEntry, List.map_cons, if_pos he, lookup]
      rw [h2]
    · rw [lookup, if_neg he] at h
      simp only [mapEntry, List.map_cons, if_neg he, lookup, if_neg he]
      exact ih h

theorem lookup_mapEntry_ne {β : Type} (c : List (String × β)) {k k2 : String}
    (f : β → β) (h : k2 ≠ k) : lookup (mapEntry c k f) k2 = lookup c k2 := by
  induction c with
  | nil => rfl
  | cons e rest ih =>
    by_cases he : e.1 = k
    · have hne : e.1 ≠ k2 := by rw [he]; exact fun hh => h hh.symm
      simp only [mapEntry, List.map_cons, if_pos he, lookup, if_neg hne] at ih ⊢
      exact ih
    · by_cases he2 : e.1 = k2
      · simp only [mapEntry, List.map_cons, if_neg he, lookup, if_pos he2]
      · simp only [mapEntry, List.map_cons, if_neg he, lookup, if_neg he2] at ih ⊢
        exact ih

theorem mapEntry_of_not_mem {β : Type} {c : List (String × β)} {k : String}
    (h : k ∉ c.map Prod.fst) (f : β → β) : mapEntry c k f = c := by
  induction c with
  | nil => rfl
  | cons e rest ih =>
    rw [List.map_cons] at h
    have h1 : e.1 ≠ k := fun he => h (by rw [he]; exact List.mem_cons_self _ _)
    have h2 : k ∉ rest.map Prod.fst := fun hm => h (List.mem_cons_of_mem _ hm)
    simp only [mapEntry, List.map_cons, if_neg h1]
    rw [show List.map _ rest = mapEntry rest k f from rfl, ih h2]

theorem map_proj_mapEntry {β γ : Type} (c : List (String × β)) (k : String)
    (f : β → β) (g : β → γ) (hf : ∀ v, g (f v) = g v) :
    (mapEntry c k f).map (fun e => (e.1, g e.2)) = c.map (fun e => (e.1, g e.2)) := by
  induction c with
  | nil => rfl
  | cons e rest ih =>
    by_cases h : e.1 = k <;>
      simp only [mapEntry, List.map_cons, if_pos, if_neg, h] at ih ⊢ <;>
      simp [hf, ih]

/-! ## Queue-move lemmas -/

theorem perm_cons_erase_of_mem {γ : Type} [BEq γ] [LawfulBEq γ] {a : γ} {l : List γ}
    (h : a ∈ l) : l.Perm (a :: l.erase a) := by
  induction l with
  | nil => cases h
  | cons b t ih =>
    by_cases hb : b = a
    · rw [hb, List.erase_cons_head]
    · rw [List.erase_cons_tail (by simp [hb])]
      rcases List.mem_cons.1 h with h1 | h1
      · exact absurd h1.symm hb
      · exact ((ih h1).cons b).trans (List.Perm.swap a b (t.erase a))

theorem moveToFront_perm (q : List String) (k : String) :
    (moveToFront q k).Perm q := by
  unfold moveToFront
  by_cases h : k ∈ q
  · rw [if_pos h]
    exact (List.perm_cons_erase h).symm
  · rw [if_neg h]

theorem length_moveToFront (q : List String) (k : String) :
    (moveToFront q k).length = q.length :=
  (moveToFront_perm q k).length_eq

theorem segMoveToFront_perm (q : List (String × Int)) (k : String) :
    (segMoveToFront q k).Perm q := by
  cases hf : q.find? (fun p => p.1 == k) with
  | none => simp [segMoveToFront, hf]
  | some p =>
    simp only [segMoveToFront, hf]
    exact (perm_cons_erase_of_mem (List.mem_of_find?_eq_some hf)).symm

theorem eraseKey_eq_filter {β : Type} (c : List (String × β)) (k : String) :
    eraseKey c k = c.filter (fun e => !(e.1 == k)) := by
  induction c with
  | nil => rfl
  | cons e rest ih =>
    by_cases h : e.1 = k <;> simp [eraseKey, h, ih, List.filter_cons]

/-- Removing the key of `p` from a keyed list that is a permutation of
`p :: rest` (keys unique) leaves a permutation of `rest`. -/
theorem eraseKey_perm_of_keys_nodup {β : Type} {L rest : List (String × β)}
    {p : String × β} (hnd : (L.map Prod.fst).Nodup) (hperm : L.Perm (p :: rest)) :
    (eraseKey L p.1).Perm rest ∧ p.1 ∉ rest.map Prod.fst := by
  have hknd : ((p :: rest).map Prod.fst).Nodup := (hperm.map Prod.fst).nodup hnd
  rw [List.map_cons, List.nodup_cons] at hknd
  have h2 : List.filter (fun e => !(e.1 == p.1)) (p :: rest) = rest := by
    rw [List.filter_cons]
    simp only [beq_self_eq_true, Bool.not_true, Bool.false_eq_true, if_false]
    apply List.filter_eq_self.2
    intro e he
    have hne : e.1 ≠ p.1 := fun hh => hknd.1 (hh ▸ List.mem_map_of_mem Prod.fst he)
    simp [hne]
  exact ⟨by rw [eraseKey_eq_filter, ← h2]; exact hperm.filter _, hknd.1⟩

/-- `segKS` commutes with `eraseKey`. -/
theorem map_segKS_eraseKey {α : Type} (c : List (String × cacheSegmentEntry α))
    (k : String) : (eraseKey c k).map segKS = eraseKey (c.map segKS) k := by
  induction c with
  | nil => rfl
  | cons e rest ih =>
    by_cases h : e.1 = k <;>
      simp only [eraseKey, List.map_cons, if_pos, if_neg, h, segKS] at ih ⊢ <;>
      simp [eraseKey, h, ih, segKS]

theorem map_fst_map_segKS {α : Type} (c : List (String × cacheSegmentEntry α)) :
    (c.map segKS).map Prod.fst = c.map Prod.fst := by
  rw [List.map_map]
  rfl

/-! ## The eviction loop of the weight-bounded cache -/

/-- Complete characterisation of one run of the eviction loop
(`src/lru_segment.go` lines 138-145), on the reversed queue `rq`.
Hypotheses: unique map keys, map entries in bijection with queue elements,
`used` is the total queued weight, weights nonnegative, `0 ≤ cap`.
The loop removes a prefix `pre` of `rq` (the tail end of the queue), emits
exactly its keys in order, leaves the weight bound satisfied and the
map/queue correspondence intact, touches no other map entry, and pops only
while the running weight still exceeds `cap`. -/
theorem segEvictAux_spec {α : Type} (cap : Int) (hcap : 0 ≤ cap) :
    ∀ (rq : List (String × Int)) (c : List (String × cacheSegmentEntry α)) (used : Int),
      (c.map Prod.fst).Nodup →
      (c.map segKS).Perm rq →
      used = (rq.map Prod.snd).sum →
      (∀ p ∈ rq, 0 ≤ p.2) →
      ∃ pre rq2 c2,
        segEvictAux cap c used rq
          = some (used - (pre.map Prod.snd).sum, rq2, c2, pre.map Prod.fst) ∧
        rq = pre ++ rq2 ∧
        used - (pre.map Prod.snd).sum ≤ cap ∧
        (c2.map Prod.fst).Nodup ∧
        (c2.map segKS).Perm rq2 ∧
        (∀ k2, k2 ∉ pre.map Prod.fst → lookup c2 k2 = lookup c k2) ∧
        (∀ pre1 x pre2, pre = pre1 ++ x :: pre2 → cap < used - (pre1.map Prod.snd).sum) := by
  intro rq
  induction rq with
  | nil =>
    intro c used hnd hperm hused hwnn
    have h0 : used = 0 := by simpa using hused
    have hnc : ¬ cap < used := by omega
    refine ⟨[], [], c, ?_, rfl, by simpa [h0] using hcap, hnd, hperm,
      fun k2 _ => rfl, fun pre1 x pre2 h => absurd h (by simp)⟩
    simp [segEvictAux, hnc]
  | cons p rest ih =>
    intro c used hnd hperm hused hwnn
    by_cases hlt : cap < used
    · have hstep := eraseKey_perm_of_keys_nodup
        (by rw [map_fst_map_segKS]; exact hnd : ((c.map segKS).map Prod.fst).Nodup) hperm
      have hperm2 : ((eraseKey c p.1).map segKS).Perm rest := by
        rw [map_segKS_eraseKey]
        exact hstep.1
      have hnd2 : ((eraseKey c p.1).map Prod.fst).Nodup :=
        ((eraseKey_sublist c p.1).map Prod.fst).nodup hnd
      have hused2 : used - p.2 = (rest.map Prod.snd).sum := by
        rw [hused]; simp
      have hwnn2 : ∀ x ∈ rest, 0 ≤ x.2 := fun x hx => hwnn x (List.mem_cons_of_mem _ hx)
      obtain ⟨pre, rq2, c2, heq, hsplit, hle, hnd3, hperm3, hlook, hpops⟩ :=
        ih (eraseKey c p.1) (used - p.2) hnd2 hperm2 hused2 hwnn2
      refine ⟨p :: pre, rq2, c2, ?_, by rw [List.cons_append, ← hsplit], ?_, hnd3, hperm3,
        ?_, ?_⟩
      · simp only [segEvictAux, if_pos hlt, heq, List.map_cons, List.sum_cons]
        congr 2
        omega
      · simp only [List.map_cons, List.sum_cons]
        omega
      · intro k2 hk2
        simp only [List.map_cons, List.mem_cons] at hk2
        push_neg at hk2
        rw [hlook k2 hk2.2]
        exact lookup_eraseKey_ne c hk2.1
      · intro pre1 x pre2 hpre
        cases pre1 with
        | nil => simpa using hlt
        | cons y pre1' =>
          rw [List.cons_append] at hpre
          have h12 := List.cons_eq_cons.1 hpre
          have h1 : y = p := h12.1.symm
          have h2 : pre = pre1' ++ x :: pre2 := h12.2
          have := hpops pre1' x pre2 h2
          simp only [List.map_cons, List.sum_cons, h1]
          omega
    · refine ⟨[], p :: rest, c, ?_, rfl, by simpa using (by omega : used ≤ cap), hnd, hperm,
        fun k2 _ => rfl, fun pre1 x pre2 h => absurd h (by simp)⟩
      simp [segEvictAux, hlt]

/-! ## Invariant preservation for the weight-bounded cache -/

theorem segGet_inv {α : Type} {s : SegmentCache α} (hs : SegInv s) (k : String) :
    SegInv (SegmentCache.Get s k).1 := by
  cases hl : lookup s.cache k with
  | none =>
    simp only [SegmentCache.Get, hl]
    exact hs
  | some e =>
    simp only [SegmentCache.Get, hl]
    have hp := segMoveToFront_perm s.q k
    exact { nodup := hs.nodup
            perm := hs.perm.trans hp.symm
            used := by rw [hs.used]; exact ((hp.map Prod.snd).sum_eq).symm
            wnn := fun p hp2 => hs.wnn p (hp.mem_iff.1 hp2)
            bounded := hs.bounded
            capnn := hs.capnn }

theorem segSetData_map_segKS {α : Type} (c : List (String × cacheSegmentEntry α))
    (k : String) (d : Option α) : (segSetData c k d).map segKS = c.map segKS :=
  map_proj_mapEntry c k _ cacheSegmentEntry.size (fun _ => rfl)

theorem segAdd_some_inv {α : Type} {s : SegmentCache α} (hs : SegInv s) (k : String)
    (d : Option α) {w : Int} (hw : 0 ≤ w) :
    ∃ r, SegmentCache.Add s k d w = some r ∧ SegInv r.1 := by
  cases hl : lookup s.cache k with
  | some e =>
    refine ⟨({ s with cache := segSetData s.cache k d, q := segMoveToFront s.q k }, []),
      by simp only [SegmentCache.Add, hl], ?_⟩
    have hp := segMoveToFront_perm s.q k
    exact { nodup := by
              show ((segSetData s.cache k d).map Prod.fst).Nodup
              rw [show (segSetData s.cache k d).map Prod.fst = s.cache.map Prod.fst from
                map_fst_mapEntry _ _ _]
              exact hs.nodup
            perm := by
              show ((segSetData s.cache k d).map segKS).Perm (segMoveToFront s.q k)
              rw [segSetData_map_segKS]
              exact hs.perm.trans hp.symm
            used := by
              show s.usedCapacity = ((segMoveToFront s.q k).map Prod.snd).sum
              rw [hs.used]
              exact ((hp.map Prod.snd).sum_eq).symm
            wnn := fun p hp2 => hs.wnn p (hp.mem_iff.1 hp2)
            bounded := hs.bounded
            capnn := hs.capnn }
  | none =>
    have hk : k ∉ s.cache.map Prod.fst := (lookup_eq_none_iff s.cache k).1 hl
    set q1 : List (String × Int) := (k, w) :: s.q with hq1
    set c1 : List (String × cacheSegmentEntry α) :=
      (k, { data := d, size := w }) :: s.cache with hc1
    have hnd1 : (c1.map Prod.fst).Nodup := by
      rw [hc1, List.map_cons, List.nodup_cons]
      exact ⟨hk, hs.nodup⟩
    have hperm1 : (c1.map segKS).Perm q1.reverse := by
      have h1 : (c1.map segKS) = (k, w) :: s.cache.map segKS := by rw [hc1]; rfl
      rw [h1, hq1]
      exact ((hs.perm.cons (k, w)).trans (List.reverse_perm ((k, w) :: s.q)).symm)
    have hused1 : s.usedCapacity + w = (q1.reverse.map Prod.snd).sum := by
      rw [((List.reverse_perm q1).map Prod.snd).sum_eq, hq1]
      rw [List.map_cons, List.sum_cons, hs.used]
      omega
    have hwnn1 : ∀ p ∈ q1.reverse, 0 ≤ p.2 := by
      intro p hp
      rw [List.mem_reverse, hq1] at hp
      rcases List.mem_cons.1 hp with h1 | h1
      · rw [h1]; exact hw
      · exact hs.wnn p h1
    obtain ⟨pre, rq2, c2, heq, hsplit, hle, hnd3, hperm3, hlook, hpops⟩ :=
      segEvictAux_spec s.capacity hs.capnn q1.reverse c1 (s.usedCapacity + w)
        hnd1 hperm1 hused1 hwnn1
    refine ⟨(⟨s.capacity, s.usedCapacity + w - (pre.map Prod.snd).sum, c2, rq2.reverse⟩,
      pre.map Prod.fst), ?_, ?_⟩
    · simp only [SegmentCache.Add, hl, SegmentCache.evict, heq]
    · have hsum2 : s.usedCapacity + w - (pre.map Prod.snd).sum = (rq2.map Prod.snd).sum := by
        have := congrArg (fun l => (l.map Prod.snd).sum) hsplit
        simp only [List.map_append, List.sum_append] at this
        omega
      exact { nodup := hnd3
              perm := hperm3.trans (List.reverse_perm rq2).symm
              used := by
                show _ = (rq2.reverse.map Prod.snd).sum
                rw [((List.reverse_perm rq2).map Prod.snd).sum_eq]
                exact hsum2
              wnn := fun p hp =>
                hwnn1 p (by rw [hsplit]; exact List.mem_append_right _ (List.mem_reverse.1 hp))
              bounded := hle
              capnn := hs.capnn }

theorem segStep_some_inv {α : Type} {s : SegmentCache α} (hs : SegInv s) {op : SegOp α}
    (hop : op.wf) : ∃ r, SegmentCache.step s op = some r ∧ SegInv r.1 := by
  cases op with
  | addOp k d w => exact segAdd_some_inv hs k d hop
  | getOp k => exact ⟨((SegmentCache.Get s k).1, []), rfl, segGet_inv hs k⟩

theorem segRun_go {α : Type} (ops : List (SegOp α)) :
    ∀ s : SegmentCache α, SegInv s → (∀ op ∈ ops, op.wf) →
      ∃ s2, ops.foldl segRunStep (some s) = some s2 ∧ SegInv s2 := by
  induction ops with
  | nil => exact fun s hs _ => ⟨s, rfl, hs⟩
  | cons op rest ih =>
    intro s hs hops
    obtain ⟨r, hr, hrinv⟩ := segStep_some_inv hs (hops op (List.mem_cons_self _ _))
    have hstep : segRunStep (some s) op = some r.1 := by simp [segRunStep, hr]
    rw [List.foldl_cons, hstep]
    exact ih r.1 hrinv (fun o ho => hops o (List.mem_cons_of_mem _ ho))

theorem NewSegmentCache_inv {α : Type} {cap : Int} (hcap : 0 ≤ cap) :
    SegInv (NewSegmentCache α cap) :=
  { nodup := List.nodup_nil
    perm := List.Perm.refl []
    used := rfl
    wnn := fun p hp => absurd hp (List.not_mem_nil p)
    bounded := hcap
    capnn := hcap }

/-- Reachable weight-bounded cache states (nonnegative capacity and
weights) satisfy the representation invariant, and no call panics. -/
theorem runSeg_some_inv {α : Type} {cap : Int} (hcap : 0 ≤ cap) (ops : List (SegOp α))
    (hops : ∀ op ∈ ops, op.wf) :
    ∃ s, runSeg α cap ops = some s ∧ SegInv s :=
  segRun_go ops (NewSegmentCache α cap) (NewSegmentCache_inv hcap) hops

/-! ## Invariant preservation for the count-bounded cache -/

theorem unpinnedKeys_nodup {α : Type} {c : List (String × cacheEntry α)}
    (hnd : (c.map Prod.fst).Nodup) : (unpinnedKeys c).Nodup :=
  ((List.filter_sublist c).map Prod.fst).nodup hnd

theorem mem_unpinnedKeys_iff {α : Type} {c : List (String × cacheEntry α)} {k : String}
    (hnd : (c.map Prod.fst).Nodup) :
    k ∈ unpinnedKeys c ↔ ∃ e, lookup c k = some e ∧ e.pinned = false := by
  constructor
  · intro h
    obtain ⟨x, hx, hxk⟩ := List.mem_map.1 h
    have hx2 := List.mem_filter.1 hx
    refine ⟨x.2, ?_, by simpa using hx2.2⟩
    rw [← hxk]
    exact lookup_of_mem_nodup hnd hx2.1
  · rintro ⟨e, hl, hp⟩
    exact List.mem_map.2 ⟨(k, e), List.mem_filter.2 ⟨lookup_mem hl, by simp [hp]⟩, rfl⟩

theorem unpinnedKeys_mapEntry {α : Type} (c : List (String × cacheEntry α)) (k : String)
    {f : cacheEntry α → cacheEntry α} (hf : ∀ v, (f v).pinned = v.pinned) :
    unpinnedKeys (mapEntry c k f) = unpinnedKeys c := by
  induction c with
  | nil => rfl
  | cons e rest ih =>
    by_cases hk : e.1 = k <;> cases hp : e.2.pinned <;>
      simp [unpinnedKeys, mapEntry, List.filter_cons, hk, hp, hf] at ih ⊢ <;>
      exact ih

theorem unpinnedKeys_eraseKey {α : Type} (c : List (String × cacheEntry α)) (b : String) :
    unpinnedKeys (eraseKey c b) = (unpinnedKeys c).filter (fun x => !(x == b)) := by
  induction c with
  | nil => rfl
  | cons e rest ih =>
    by_cases hk : e.1 = b <;> cases hp : e.2.pinned <;>
      simp [unpinnedKeys, eraseKey, List.filter_cons, hk, hp] at ih ⊢ <;>
      exact ih

theorem unpinnedKeys_setPinned_true {α : Type} (c : List (String × cacheEntry α))
    (k : String) :
    unpinnedKeys (setPinned c k true) = (unpinnedKeys c).filter (fun x => !(x == k)) := by
  induction c with
  | nil => rfl
  | cons e rest ih =>
    by_cases hk : e.1 = k <;> cases hp : e.2.pinned <;>
      simp [unpinnedKeys, setPinned, mapEntry, List.filter_cons, hk, hp] at ih ⊢ <;>
      exact ih

theorem unpinnedKeys_setPinned_false {α : Type} {c : List (String × cacheEntry α)}
    {k : String} {e : cacheEntry α} (hnd : (c.map Prod.fst).Nodup)
    (hl : lookup c k = some e) (hp : e.pinned = true) :
    (unpinnedKeys (setPinned c k false)).Perm (k :: unpinnedKeys c) := by
  induction c with
  | nil => simp [lookup] at hl
  | cons x rest ih =>
    rw [List.map_cons, List.nodup_cons] at hnd
    by_cases hk : x.1 = k
    · have hx2 : x.2 = e := by
        rw [lookup, if_pos hk] at hl
        exact Option.some.inj hl
      have hrest : k ∉ rest.map Prod.fst := hk ▸ hnd.1
      have hxp : x.2.pinned = true := hx2 ▸ hp
      rw [show setPinned (x :: rest) k false
            = (x.1, { x.2 with pinned := false }) :: setPinned rest k false by
          simp [setPinned, mapEntry, hk]]
      rw [show setPinned rest k false = rest from
          mapEntry_of_not_mem hrest _]
      simp [unpinnedKeys, List.filter_cons, hxp, hk]
    · have hl2 : lookup rest k = some e := by
        rw [lookup, if_neg hk] at hl
        exact hl
      have hperm := ih hnd.2 hl2
      rw [show setPinned (x :: rest) k false = x :: setPinned rest k false by
          simp [setPinned, mapEntry, hk]]
      cases hxp : x.2.pinned
      · rw [show unpinnedKeys (x :: setPinned rest k false)
              = x.1 :: unpinnedKeys (setPinned rest k false) by
            simp [unpinnedKeys, List.filter_cons, hxp]]
        rw [show unpinnedKeys (x :: rest) = x.1 :: unpinnedKeys rest by
            simp [unpinnedKeys, List.filter_cons, hxp]]
        exact (hperm.cons x.1).trans (List.Perm.swap k x.1 _)
      · rw [show unpinnedKeys (x :: setPinned rest k false)
              = unpinnedKeys (setPinned rest k false) by
            simp [unpinnedKeys, List.filter_cons, hxp]]
        rw [show unpinnedKeys (x :: rest) = unpinnedKeys rest by
            simp [unpinnedKeys, List.filter_cons, hxp]]
        exact hperm

theorem map_fst_setData {α : Type} (c : List (String × cacheEntry α)) (k : String)
    (d : Option α) : (setData c k d).map Prod.fst = c.map Prod.fst :=
  map_fst_mapEntry c k _

theorem map_fst_setPinned {α : Type} (c : List (String × cacheEntry α)) (k : String)
    (b : Bool) : (setPinned c k b).map Prod.fst = c.map Prod.fst :=
  map_fst_mapEntry c k _

theorem unpinnedKeys_setData {α : Type} (c : List (String × cacheEntry α)) (k : String)
    (d : Option α) : unpinnedKeys (setData c k d) = unpinnedKeys c :=
  unpinnedKeys_mapEntry c k (fun _ => rfl)

theorem cacheEvict_inv {α : Type} {s : Cache α}
    (hnd : (s.cache.map Prod.fst).Nodup)
    (hperm : s.q.Perm (unpinnedKeys s.cache))
    (hlen : (s.q.length : Int) ≤ max s.size 0 + 1) :
    CacheInv (Cache.evict s).1 := by
  have hmax1 : s.size ≤ max s.size 0 := le_max_left _ _
  have hmax2 : (0 : Int) ≤ max s.size 0 := le_max_right _ _
  by_cases hg : s.size < (s.q.length : Int)
  · rcases List.eq_nil_or_concat s.q with hq | ⟨q0, b, hq⟩
    · have hlast : s.q.getLast? = none := by rw [hq]; rfl
      simp only [Cache.evict, if_pos hg, hlast]
      exact { nodup := hnd, perm := hperm,
              len := by rw [hq]; simp [hmax2] }
    · rw [List.concat_eq_append] at hq
      have hlast : s.q.getLast? = some b := by rw [hq]; exact List.getLast?_concat q0
      have hdrop : s.q.dropLast = q0 := by rw [hq]; exact List.dropLast_concat
      simp only [Cache.evict, if_pos hg, hlast]
      have hU : (unpinnedKeys s.cache).Nodup := unpinnedKeys_nodup hnd
      have hqnd : s.q.Nodup := hperm.symm.nodup hU
      have hbq : b ∉ q0 := by
        have h2 : (b :: q0).Nodup :=
          (List.perm_append_singleton b q0).nodup (hq ▸ hqnd)
        exact (List.nodup_cons.1 h2).1
      have hfilter : List.filter (fun x => !(x == b)) s.q = q0 := by
        rw [hq, List.filter_append]
        have h1 : List.filter (fun x => !(x == b)) q0 = q0 :=
          List.filter_eq_self.2 (fun x hx => by
            have hxb : x ≠ b := fun he => hbq (he ▸ hx)
            simp [hxb])
        have h2 : List.filter (fun x => !(x == b)) [b] = [] := by simp
        rw [h1, h2, List.append_nil]
      refine { nodup := ((eraseKey_sublist _ _).map Prod.fst).nodup hnd,
               perm := ?_, len := ?_ }
      · show s.q.dropLast.Perm (unpinnedKeys (eraseKey s.cache b))
        rw [unpinnedKeys_eraseKey, hdrop, ← hfilter]
        exact hperm.filter _
      · show ((s.q.dropLast.length : Nat) : Int) ≤ max s.size 0
        rw [hdrop]
        have hql : s.q.length = q0.length + 1 := by rw [hq]; simp
        omega
  · simp only [Cache.evict, if_neg hg]
    exact { nodup := hnd, perm := hperm, len := by omega }

theorem cacheGet_inv {α : Type} {s : Cache α} (hs : CacheInv s) (k : String) :
    CacheInv (Cache.Get s k).1 := by
  cases hl : lookup s.cache k with
  | none => simpa only [Cache.Get, hl] using hs
  | some e =>
    cases hp : e.pinned
    · simp only [Cache.Get, hl, hp, Bool.false_eq_true, if_false]
      exact { nodup := hs.nodup
              perm := (moveToFront_perm s.q k).trans hs.perm
              len := by
                show (((moveToFront s.q k).length : Nat) : Int) ≤ max s.size 0
                rw [length_moveToFront]
                exact hs.len }
    · simpa only [Cache.Get, hl, hp, if_true] using hs

theorem cacheAdd_inv {α : Type} {s : Cache α} (hs : CacheInv s) (k : String)
    (d : Option α) : CacheInv (Cache.Add s k d).1 := by
  cases hl : lookup s.cache k with
  | some e =>
    have hnd2 : ((setData s.cache k d).map Prod.fst).Nodup := by
      rw [map_fst_setData]; exact hs.nodup
    cases hp : e.pinned
    · simp only [Cache.Add, hl, hp, Bool.false_eq_true, if_false]
      exact { nodup := hnd2
              perm := by
                rw [unpinnedKeys_setData]
                exact (moveToFront_perm s.q k).trans hs.perm
              len := by
                show (((moveToFront s.q k).length : Nat) : Int) ≤ max s.size 0
                rw [length_moveToFront]
                exact hs.len }
    · simp only [Cache.Add, hl, hp, if_true]
      exact { nodup := hnd2
              perm := by rw [unpinnedKeys_setData]; exact hs.perm
              len := hs.len }
  | none =>
    simp only [Cache.Add, hl]
    apply cacheEvict_inv
    · show (((k, { data := d, pinned := false }) :: s.cache).map Prod.fst).Nodup
      rw [List.map_cons, List.nodup_cons]
      exact ⟨(lookup_eq_none_iff s.cache k).1 hl, hs.nodup⟩
    · show (k :: s.q).Perm (unpinnedKeys ((k, { data := d, pinned := false }) :: s.cache))
      rw [show unpinnedKeys ((k, { data := d, pinned := false }) :: s.cache)
            = k :: unpinnedKeys s.cache by simp [unpinnedKeys, List.filter_cons]]
      exact hs.perm.cons k
    · show (((k :: s.q).length : Nat) : Int) ≤ max s.size 0 + 1
      have hl2 := hs.len
      simp only [List.length_cons]
      omega

theorem cachePin_inv {α : Type} {s : Cache α} (hs : CacheInv s) (k : String) :
    CacheInv (Cache.Pin s k) := by
  cases hl : lookup s.cache k with
  | none => simpa only [Cache.Pin, hl] using hs
  | some e =>
    cases hp : e.pinned
    · simp only [Cache.Pin, hl, hp, Bool.false_eq_true, if_false]
      have hqnd : s.q.Nodup := hs.perm.symm.nodup (unpinnedKeys_nodup hs.nodup)
      exact { nodup := by rw [map_fst_setPinned]; exact hs.nodup
              perm := by
                rw [unpinnedKeys_setPinned_true]
                rw [hqnd.erase_eq_filter k]
                exact hs.perm.filter _
              len := by
                show ((s.q.erase k).length : Int) ≤ max s.size 0
                have hle : (s.q.erase k).length ≤ s.q.length :=
                  (List.erase_sublist k s.q).length_le
                have hl2 := hs.len
                omega }
    · simpa only [Cache.Pin, hl, hp, if_true] using hs

theorem cacheUnpin_inv {α : Type} {s : Cache α} (hs : CacheInv s) (k : String) :
    CacheInv (Cache.Unpin s k).1 := by
  cases hl : lookup s.cache k with
  | none => simpa only [Cache.Unpin, hl] using hs
  | some e =>
    cases hp : e.pinned
    · simpa only [Cache.Unpin, hl, hp, Bool.false_eq_true, if_false] using hs
    · simp only [Cache.Unpin, hl, hp, if_true]
      apply cacheEvict_inv
      · show ((setPinned s.cache k false).map Prod.fst).Nodup
        rw [map_fst_setPinned]; exact hs.nodup
      · show (k :: s.q).Perm (unpinnedKeys (setPinned s.cache k false))
        exact (hs.perm.cons k).trans
          (unpinnedKeys_setPinned_false hs.nodup hl hp).symm
      · show (((k :: s.q).length : Nat) : Int) ≤ max s.size 0 + 1
        have hl2 := hs.len
        simp only [List.length_cons]
        omega

theorem cacheStep_inv {α : Type} {s : Cache α} (hs : CacheInv s) (op : CacheOp α) :
    CacheInv (Cache.step s op).1 := by
  cases op with
  | addOp k d => exact cacheAdd_inv hs k d
  | getOp k => exact cacheGet_inv hs k
  | pinOp k => exact cachePin_inv hs k
  | unpinOp k => exact cacheUnpin_inv hs k

theorem NewCache_inv {α : Type} (size : Int) : CacheInv (NewCache α size) :=
  { nodup := List.nodup_nil
    perm := List.Perm.refl []
    len := by
      show ((List.length ([] : List String) : Nat) : Int) ≤ max size 0
      simp only [List.length_nil, Nat.cast_zero]
      exact le_max_right size 0 }

/-- Every reachable count-bounded cache state satisfies the representation
invariant — for every configured size, including negative ones. -/
theorem runCache_inv {α : Type} (size : Int) (ops : List (CacheOp α)) :
    CacheInv (runCache α size ops) := by
  suffices h : ∀ (l : List (CacheOp α)) (s : Cache α), CacheInv s →
      CacheInv (l.foldl (fun s op => (Cache.step s op).1) s) by
    exact h ops (NewCache α size) (NewCache_inv size)
  intro l
  induction l with
  | nil => exact fun s hs => hs
  | cons op rest ih =>
    intro s hs
    rw [List.foldl_cons]
    exact ih _ (cacheStep_inv hs op)

/-! ## Further helper lemmas for the claim theorems -/

theorem mem_map_fst_eraseKey_of_ne {β : Type} {c : List (String × β)} {k b : String}
    (h : k ∈ c.map Prod.fst) (hne : k ≠ b) : k ∈ (eraseKey c b).map Prod.fst := by
  induction c with
  | nil => simp at h
  | cons e rest ih =>
    rw [List.map_cons, List.mem_cons] at h
    by_cases he : e.1 = b
    · simp only [eraseKey, if_pos he]
      rcases h with h1 | h1
      · exact absurd (h1 ▸ he) hne
      · exact ih h1
    · simp only [eraseKey, if_neg he, List.map_cons, List.mem_cons]
      rcases h with h1 | h1
      · exact Or.inl h1
      · exact Or.inr (ih h1)

theorem find?_key_of_mem_nodup {β : Type} [BEq β] [LawfulBEq β]
    {q : List (String × β)} {k : String} {v : β}
    (hnd : (q.map Prod.fst).Nodup) (h : (k, v) ∈ q) :
    q.find? (fun p => p.1 == k) = some (k, v) := by
  induction q with
  | nil => simp at h
  | cons e rest ih =>
    rw [List.map_cons, List.nodup_cons] at hnd
    rcases List.mem_cons.1 h with h1 | h1
    · rw [← h1]
      simp [List.find?]
    · have hk : k ∈ rest.map Prod.fst := List.mem_map_of_mem Prod.fst h1
      have hne : e.1 ≠ k := fun he => hnd.1 (he ▸ hk)
      rw [List.find?]
      have : (e.1 == k) = false := beq_false_of_ne hne
      rw [this]
      exact ih hnd.2 h1

theorem length_filter_split {γ : Type} (p : γ → Bool) (l : List γ) :
    (l.filter p).length + (l.filter (fun x => !(p x))).length = l.length := by
  induction l with
  | nil => rfl
  | cons x rest ih =>
    cases hp : p x <;> simp [List.filter_cons, hp, ← ih] <;> omega

/-- Complete characterisation of `SegmentCache.Add` on a key not in the
index, for states satisfying the representation invariant: the new entry is
pushed, `weight` is added, and the eviction loop removes the tail prefix
`pre` of the reversed queue, emitting its keys, leaving the other map
entries untouched, and popping only while over capacity. -/
theorem segAdd_new_spec {α : Type} {s : SegmentCache α} (hs : SegInv s) (k : String)
    (d : Option α) {w : Int} (hl : lookup s.cache k = none) (hw : 0 ≤ w) :
    ∃ pre rq2 c2,
      ((k, w) :: s.q).reverse = pre ++ rq2 ∧
      SegmentCache.Add s k d w =
        some (⟨s.capacity, s.usedCapacity + w - (pre.map Prod.snd).sum, c2, rq2.reverse⟩,
          pre.map Prod.fst) ∧
      s.usedCapacity + w - (pre.map Prod.snd).sum ≤ s.capacity ∧
      (∀ k2, k2 ∉ pre.map Prod.fst →
        lookup c2 k2 = lookup ((k, { data := d, size := w }) :: s.cache) k2) ∧
      (c2.map segKS).Perm rq2 ∧
      (c2.map Prod.fst).Nodup ∧
      ((((k, w) :: s.q).reverse.map Prod.fst).Nodup) ∧
      s.usedCapacity + w = ((((k, w) :: s.q).reverse.map Prod.snd)).sum ∧
      (∀ pre1 x pre2, pre = pre1 ++ x :: pre2 →
        s.capacity < s.usedCapacity + w - (pre1.map Prod.snd).sum) := by
  have hk : k ∉ s.cache.map Prod.fst := (lookup_eq_none_iff s.cache k).1 hl
  set q1 : List (String × Int) := (k, w) :: s.q with hq1
  set c1 : List (String × cacheSegmentEntry α) :=
    (k, { data := d, size := w }) :: s.cache with hc1
  have hnd1 : (c1.map Prod.fst).Nodup := by
    rw [hc1, List.map_cons, List.nodup_cons]
    exact ⟨hk, hs.nodup⟩
  have hperm1 : (c1.map segKS).Perm q1.reverse := by
    have h1 : (c1.map segKS) = (k, w) :: s.cache.map segKS := by rw [hc1]; rfl
    rw [h1, hq1]
    exact ((hs.perm.cons (k, w)).trans (List.reverse_perm ((k, w) :: s.q)).symm)
  have hused1 : s.usedCapacity + w = (q1.reverse.map Prod.snd).sum := by
    rw [((List.reverse_perm q1).map Prod.snd).sum_eq, hq1]
    rw [List.map_cons, List.sum_cons, hs.used]
    omega
  have hwnn1 : ∀ p ∈ q1.reverse, 0 ≤ p.2 := by
    intro p hp
    rw [List.mem_reverse, hq1] at hp
    rcases List.mem_cons.1 hp with h1 | h1
    · rw [h1]; exact hw
    · exact hs.wnn p h1
  obtain ⟨pre, rq2, c2, heq, hsplit, hle, hnd3, hperm3, hlook, hpops⟩ :=
    segEvictAux_spec s.capacity hs.capnn q1.reverse c1 (s.usedCapacity + w)
      hnd1 hperm1 hused1 hwnn1
  have hqknd : (q1.reverse.map Prod.fst).Nodup := by
    have h1 := (hperm1.map Prod.fst).nodup
    rw [map_fst_map_segKS] at h1
    exact h1 hnd1
  refine ⟨pre, rq2, c2, hsplit, ?_, hle, hlook, hperm3, hnd3, hqknd, hused1, hpops⟩
  simp only [SegmentCache.Add, hl, SegmentCache.evict, heq]

/-! ## Claim theorems -/

/-- Claim C10: a freshly constructed cache is empty — for every key, `Get`
returns `(nil, false)`, `HasKey` returns `false`, `Len() = 0`, the recency
queue is empty, the weighted variant has `UsedCapacity() = 0`, `IsPinned`
returns an error for every key, and the configured size/capacity is stored
as given, unvalidated. -/
theorem C10_fresh_cache_empty {α : Type} (size cap : Int) (k : String) :
    Cache.Get (NewCache α size) k = (NewCache α size, (none, false)) ∧
    Cache.HasKey (NewCache α size) k = false ∧
    Cache.Len (NewCache α size) = 0 ∧
    (NewCache α size).q = [] ∧
    Cache.IsPinned (NewCache α size) k
      = (NewCache α size, Except.error (k ++ ": not in cache")) ∧
    Cache.Size (NewCache α size) = size ∧
    SegmentCache.Get (NewSegmentCache α cap) k = (NewSegmentCache α cap, (none, false)) ∧
    SegmentCache.HasKey (NewSegmentCache α cap) k = false ∧
    SegmentCache.Len (NewSegmentCache α cap) = 0 ∧
    (NewSegmentCache α cap).q = [] ∧
    SegmentCache.UsedCapacity (NewSegmentCache α cap) = 0 ∧
    SegmentCache.Capacity (NewSegmentCache α cap) = cap :=
  ⟨rfl, rfl, rfl, rfl, rfl, rfl, rfl, rfl, rfl, rfl, rfl, rfl⟩

/-- Claim C9: `IsPinned` returns an error exactly when the key is absent,
returns the pinned flag without error when present, and never changes the
cache state.  (Every other public operation's result type carries no error
at all — visible from the definitions in this file — and signals absence
through a boolean `found` flag.) -/
theorem C9_isPinned_error {α : Type} (s : Cache α) (k : String) :
    (Cache.IsPinned s k).1 = s ∧
    (∀ e, lookup s.cache k = some e → Cache.IsPinned s k = (s, Except.ok e.pinned)) ∧
    (lookup s.cache k = none →
      Cache.IsPinned s k = (s, Except.error (k ++ ": not in cache"))) ∧
    ((∃ b, (Cache.IsPinned s k).2 = Except.ok b) ↔ Cache.HasKey s k = true) := by
  refine ⟨?_, ?_, ?_, ?_⟩
  · cases hl : lookup s.cache k <;> simp [Cache.IsPinned, hl]
  · intro e hl; simp [Cache.IsPinned, hl]
  · intro hl; simp [Cache.IsPinned, hl]
  · cases hl : lookup s.cache k with
    | none => simp [Cache.IsPinned, Cache.HasKey, hl]
    | some e => simp [Cache.IsPinned, Cache.HasKey, hl]

/-- Witness for C9 at a concrete state: one pinned entry, one absent key. -/
theorem C9_isPinned_error_witness :
    Cache.IsPinned (⟨2, [("a", ⟨some 1, true⟩)], []⟩ : Cache Nat) "a"
      = ((⟨2, [("a", ⟨some 1, true⟩)], []⟩ : Cache Nat), Except.ok true) ∧
    Cache.IsPinned (⟨2, [("a", ⟨some 1, true⟩)], []⟩ : Cache Nat) "b"
      = ((⟨2, [("a", ⟨some 1, true⟩)], []⟩ : Cache Nat), Except.error "b: not in cache") :=
  ⟨(C9_isPinned_error (⟨2, [("a", ⟨some 1, true⟩)], []⟩ : Cache Nat) "a").2.1
      ⟨some 1, true⟩ (by decide),
   (C9_isPinned_error (⟨2, [("a", ⟨some 1, true⟩)], []⟩ : Cache Nat) "b").2.2.1
      (by decide)⟩

/-- Claim C6: for the weight-bounded cache, `Add` on an existing key moves
the entry to the queue head and replaces its data, while its stored weight,
`usedCapacity`, the key set and all other entries are untouched — even when
the supplied weight differs — and no eviction runs (the callback list is
empty and the call returns through the existing-key branch). -/
theorem C6_add_existing_frame {α : Type} (s : SegmentCache α) (k : String)
    (d : Option α) (w : Int) {e : cacheSegmentEntry α}
    (hl : lookup s.cache k = some e)
    (hq : (k, e.size) ∈ s.q) (hqnd : (s.q.map Prod.fst).Nodup) :
    SegmentCache.Add s k d w =
      some ({ s with cache := segSetData s.cache k d,
                     q := (k, e.size) :: s.q.erase (k, e.size) }, []) ∧
    lookup (segSetData s.cache k d) k = some { e with data := d } ∧
    (∀ k2, k2 ≠ k → lookup (segSetData s.cache k d) k2 = lookup s.cache k2) ∧
    (segSetData s.cache k d).map segKS = s.cache.map segKS ∧
    (segSetData s.cache k d).map Prod.fst = s.cache.map Prod.fst := by
  have hfind : s.q.find? (fun p => p.1 == k) = some (k, e.size) :=
    find?_key_of_mem_nodup hqnd hq
  refine ⟨?_, lookup_mapEntry_self hl _, fun k2 h2 => lookup_mapEntry_ne s.cache _ h2,
    segSetData_map_segKS s.cache k d, map_fst_mapEntry s.cache k _⟩
  simp only [SegmentCache.Add, hl, segMoveToFront, hfind]

/-- Witness for C6 at a concrete state: re-adding key `a` with a different
weight moves it to the head, replaces the value, and leaves weights alone. -/
theorem C6_add_existing_frame_witness :
    SegmentCache.Add (⟨10, 5, [("b", ⟨some 2, 2⟩), ("a", ⟨some 1, 3⟩)],
        [("b", 2), ("a", 3)]⟩ : SegmentCache Nat) "a" (some 9) 7
      = some ({ (⟨10, 5, [("b", ⟨some 2, 2⟩), ("a", ⟨some 1, 3⟩)],
          [("b", 2), ("a", 3)]⟩ : SegmentCache Nat) with
            cache := segSetData [("b", ⟨some 2, 2⟩), ("a", ⟨some 1, 3⟩)] "a" (some 9),
            q := ("a", 3) :: [("b", 2), ("a", 3)].erase ("a", 3) }, []) ∧
    lookup (segSetData [("b", ⟨some 2, 2⟩), ("a", ⟨some 1, 3⟩)] "a" (some 9)) "a"
      = some (⟨some 9, 3⟩ : cacheSegmentEntry Nat) :=
  ⟨(@C6_add_existing_frame Nat (⟨10, 5, [("b", ⟨some 2, 2⟩), ("a", ⟨some 1, 3⟩)],
      [("b", 2), ("a", 3)]⟩ : SegmentCache Nat) "a" (some 9) 7
      ⟨some 1, 3⟩ (by decide) (by decide) (by decide)).1,
   (@C6_add_existing_frame Nat (⟨10, 5, [("b", ⟨some 2, 2⟩), ("a", ⟨some 1, 3⟩)],
      [("b", 2), ("a", 3)]⟩ : SegmentCache Nat) "a" (some 9) 7
      ⟨some 1, 3⟩ (by decide) (by decide) (by decide)).2.1⟩

/-- Claim C7: in both caches, `Get` on a present key returns the stored
value with `found = true` and only moves that entry to the queue head (in
the count-bounded cache only when unpinned); the index — hence the key set,
every stored value, `Len()` and `UsedCapacity()` — is untouched.  `Get` on
an absent key returns `(nil, false)` and is the identity on the state. -/
theorem C7_get_frame {α : Type} :
    (∀ (s : Cache α) (k : String) (e : cacheEntry α),
      lookup s.cache k = some e → e.pinned = false → k ∈ s.q →
      Cache.Get s k = ({ s with q := k :: s.q.erase k }, (e.data, true))) ∧
    (∀ (s : Cache α) (k : String) (e : cacheEntry α),
      lookup s.cache k = some e → e.pinned = true →
      Cache.Get s k = (s, (e.data, true))) ∧
    (∀ (s : Cache α) (k : String),
      lookup s.cache k = none → Cache.Get s k = (s, (none, false))) ∧
    (∀ (s : SegmentCache α) (k : String) (e : cacheSegmentEntry α),
      lookup s.cache k = some e → (k, e.size) ∈ s.q → (s.q.map Prod.fst).Nodup →
      SegmentCache.Get s k
        = ({ s with q := (k, e.size) :: s.q.erase (k, e.size) }, (e.data, true))) ∧
    (∀ (s : SegmentCache α) (k : String),
      lookup s.cache k = none → SegmentCache.Get s k = (s, (none, false))) := by
  refine ⟨?_, ?_, ?_, ?_, ?_⟩
  · intro s k e hl hp hq
    simp only [Cache.Get, hl, hp, Bool.false_eq_true, if_false, moveToFront, if_pos hq]
  · intro s k e hl hp
    simp only [Cache.Get, hl, hp, if_true]
  · intro s k hl
    simp only [Cache.Get, hl]
  · intro s k e hl hq hnd
    have hfind : s.q.find? (fun p => p.1 == k) = some (k, e.size) :=
      find?_key_of_mem_nodup hnd hq
    simp only [SegmentCache.Get, hl, segMoveToFront, hfind]
  · intro s k hl
    simp only [SegmentCache.Get, hl]

/-- Witness for C7 at concrete states: a present unpinned key is moved to
the front and returned; an absent key changes nothing. -/
theorem C7_get_frame_witness :
    Cache.Get (⟨3, [("a", ⟨some 5, false⟩)], ["a"]⟩ : Cache Nat) "a"
      = ((⟨3, [("a", ⟨some 5, false⟩)], ["a"]⟩ : Cache Nat), (some 5, true)) ∧
    SegmentCache.Get (⟨9, 4, [("a", ⟨some 5, 4⟩)], [("a", 4)]⟩ : SegmentCache Nat) "z"
      = ((⟨9, 4, [("a", ⟨some 5, 4⟩)], [("a", 4)]⟩ : SegmentCache Nat), (none, false)) :=
  ⟨(C7_get_frame (α := Nat)).1 (⟨3, [("a", ⟨some 5, false⟩)], ["a"]⟩ : Cache Nat) "a"
      ⟨some 5, false⟩ (by decide) rfl (by decide),
   (C7_get_frame (α := Nat)).2.2.2.2 (⟨9, 4, [("a", ⟨some 5, 4⟩)], [("a", 4)]⟩ : SegmentCache Nat)
      "z" (by decide)⟩

/-- Claim C1: for the weight-bounded cache with `capacity ≥ 0` and all
`Add` weights `≥ 0`, after every sequence of public calls `usedCapacity`
equals the sum of the weights of the entries currently in the index and
`usedCapacity ≤ capacity`; and a single `Add` of a fresh key whose weight
exceeds the whole capacity makes the eviction loop empty the cache, ending
with zero entries and `usedCapacity = 0`. -/
theorem C1_weight_invariant {α : Type} (cap : Int) (ops : List (SegOp α))
    (hcap : 0 ≤ cap) (hops : ∀ op ∈ ops, op.wf) :
    ∀ s, runSeg α cap ops = some s →
      (s.usedCapacity = (s.cache.map (fun e => e.2.size)).sum ∧
       s.usedCapacity ≤ s.capacity) ∧
      (∀ k d w, lookup s.cache k = none → s.capacity < w → 0 ≤ w →
        ∀ r, SegmentCache.Add s k d w = some r →
          r.1.cache = [] ∧ r.1.usedCapacity = 0 ∧ r.1.q = []) := by
  obtain ⟨s0, hrun, hinv⟩ := runSeg_some_inv hcap ops hops
  intro s hs
  rw [hrun] at hs
  obtain rfl : s0 = s := Option.some.inj hs
  constructor
  · refine ⟨?_, hinv.bounded⟩
    rw [hinv.used]
    have h1 := (hinv.perm.map Prod.snd).sum_eq
    rw [← h1, List.map_map]
    rfl
  · intro k d w hlk hcw hw r hr
    obtain ⟨pre, rq2, c2, hsplit, heq, hle, hlook, hperm3, hnd3, hqknd, hused1, hpops⟩ :=
      segAdd_new_spec hinv k d hlk hw
    rw [heq] at hr
    have hr2 := Option.some.inj hr
    have hrq2 : rq2 = [] := by
      by_contra hne
      rcases List.eq_nil_or_concat rq2 with h | ⟨rq2b, x, hx⟩
      · exact hne h
      · rw [List.concat_eq_append] at hx
        have hrqeq : ((k, w) :: s0.q).reverse = s0.q.reverse ++ [(k, w)] := by simp
        have hlast1 : (((k, w) :: s0.q).reverse).getLast? = some (k, w) := by
          rw [hrqeq]; exact List.getLast?_concat _
        have hlast2 : (((k, w) :: s0.q).reverse).getLast? = some x := by
          rw [hsplit, hx, ← List.append_assoc]; exact List.getLast?_concat _
        have hxkw : x = (k, w) := by
          rw [hlast1] at hlast2
          exact (Option.some.inj hlast2).symm
        have hsum : s0.usedCapacity + w - (pre.map Prod.snd).sum
            = (rq2.map Prod.snd).sum := by
          have h3 := congrArg (fun l => (l.map Prod.snd).sum) hsplit
          simp only [List.map_append, List.sum_append] at h3
          omega
        have hnn : 0 ≤ (rq2b.map Prod.snd).sum := by
          apply List.sum_nonneg
          intro y hy
          obtain ⟨p, hp, rfl⟩ := List.mem_map.1 hy
          have hpin : p ∈ ((k, w) :: s0.q).reverse := by
            rw [hsplit, hx]
            exact List.mem_append_right _ (List.mem_append_left _ hp)
          rw [List.mem_reverse] at hpin
          rcases List.mem_cons.1 hpin with h1 | h1
          · rw [h1]; exact hw
          · exact hinv.wnn p h1
        rw [hx, hxkw] at hsum
        simp only [List.map_append, List.sum_append, List.map_cons, List.sum_cons,
          List.map_nil, List.sum_nil] at hsum
        omega
    subst hrq2
    have hc2 : c2 = [] := List.map_eq_nil_iff.1 hperm3.eq_nil
    have hsum0 : s0.usedCapacity + w - (pre.map Prod.snd).sum = 0 := by
      have h3 := congrArg (fun l => (l.map Prod.snd).sum) hsplit
      simp only [List.map_append, List.sum_append, List.map_nil, List.sum_nil] at h3
      omega
    rw [← hr2]
    exact ⟨hc2, hsum0, by simp⟩

/-- Witness for C1: two small inserts under capacity 3, then an oversized
insert into the fresh cache empties it. -/
theorem C1_weight_invariant_witness :
    ((⟨3, 2, [("b", ⟨some 2, 2⟩)], [("b", 2)]⟩ : SegmentCache Nat).usedCapacity
      = ((⟨3, 2, [("b", ⟨some 2, 2⟩)], [("b", 2)]⟩ : SegmentCache Nat).cache.map
          (fun e => e.2.size)).sum ∧
     (⟨3, 2, [("b", ⟨some 2, 2⟩)], [("b", 2)]⟩ : SegmentCache Nat).usedCapacity
      ≤ (⟨3, 2, [("b", ⟨some 2, 2⟩)], [("b", 2)]⟩ : SegmentCache Nat).capacity) ∧
    ((⟨3, 0, [], []⟩ : SegmentCache Nat), ["a"]).1.cache = [] ∧
    ((⟨3, 0, [], []⟩ : SegmentCache Nat), ["a"]).1.usedCapacity = 0 ∧
    ((⟨3, 0, [], []⟩ : SegmentCache Nat), ["a"]).1.q = [] :=
  ⟨(C1_weight_invariant 3 [SegOp.addOp "a" (some 1) 2, SegOp.addOp "b" (some 2) 2]
      (by decide) (by decide)
      (⟨3, 2, [("b", ⟨some 2, 2⟩)], [("b", 2)]⟩ : SegmentCache Nat) (by decide)).1,
   (C1_weight_invariant 3 [] (by decide) (by decide)
      (NewSegmentCache Nat 3) rfl).2 "a" (some 1) 5 rfl (by decide) (by decide)
      ((⟨3, 0, [], []⟩ : SegmentCache Nat), ["a"]) (by decide)⟩

/-- Claim C8: with `capacity ≥ 0` and nonnegative weights, no run of the
weight-bounded cache ever pops an empty queue (the run never panics, and in
every reachable state `usedCapacity > capacity` implies a non-empty queue);
the eviction loop of an `Add` performs at most queue-length iterations (one
per emitted key); and the count-bounded cache's single-step eviction is
always handed a non-empty queue by both of its call sites, so every public
operation of both caches is a total, terminating computation. -/
theorem C8_termination {α : Type} (cap : Int) (ops : List (SegOp α))
    (hcap : 0 ≤ cap) (hops : ∀ op ∈ ops, op.wf) :
    (runSeg α cap ops).isSome = true ∧
    (∀ s, runSeg α cap ops = some s →
      (s.capacity < s.usedCapacity → s.q ≠ []) ∧
      (∀ k d (w : Int), 0 ≤ w → ∀ r, SegmentCache.Add s k d w = some r →
        r.2.length ≤ s.q.length + 1)) ∧
    (∀ (t : Cache α) (k : String) (d : Option α),
      ¬ Cache.evictPanics
          { t with cache := (k, { data := d, pinned := false }) :: t.cache,
                   q := k :: t.q } ∧
      ¬ Cache.evictPanics
          { t with cache := setPinned t.cache k false, q := k :: t.q }) := by
  obtain ⟨s0, hrun, hinv⟩ := runSeg_some_inv hcap ops hops
  refine ⟨by rw [hrun]; rfl, ?_, ?_⟩
  · intro s hs
    rw [hrun] at hs
    obtain rfl : s0 = s := Option.some.inj hs
    constructor
    · intro hover
      exact absurd hinv.bounded (not_le.2 hover)
    · intro k d w hw r hr
      cases hl : lookup s0.cache k with
      | some e =>
        rw [SegmentCache.Add, hl] at hr
        have := Option.some.inj hr
        rw [← this]
        simp
      | none =>
        obtain ⟨pre, rq2, c2, hsplit, heq, _, _, _, _, _, _, _⟩ :=
          segAdd_new_spec hinv k d hl hw
        rw [heq] at hr
        have hr2 := Option.some.inj hr
        have hlen := congrArg List.length hsplit
        simp only [List.length_append, List.length_reverse, List.length_cons] at hlen
        rw [← hr2]
        simp only [List.length_map]
        omega
  · intro t k d
    constructor
    · intro h
      exact List.cons_ne_nil k t.q h.2
    · intro h
      exact List.cons_ne_nil k t.q h.2

/-- Witness for C8: the two-insert run exists and its eviction emitted at
most queue-length keys; the count-cache call sites never panic. -/
theorem C8_termination_witness :
    (runSeg Nat 3 [SegOp.addOp "a" (some 1) 2, SegOp.addOp "b" (some 2) 2]).isSome
      = true ∧
    ¬ Cache.evictPanics
        { (NewCache Nat 0) with
            cache := ("a", { data := some 1, pinned := false }) :: (NewCache Nat 0).cache,
            q := "a" :: (NewCache Nat 0).q } :=
  ⟨(C8_termination 3 [SegOp.addOp "a" (some 1) 2, SegOp.addOp "b" (some 2) 2]
      (by decide) (by decide)).1,
   ((C8_termination (α := Nat) 0 [] (by decide) (by decide)).2.2
      (NewCache Nat 0) "a" (some 1)).1⟩

theorem cacheEvict_size {α : Type} (s : Cache α) : (Cache.evict s).1.size = s.size := by
  unfold Cache.evict
  by_cases hg : s.size < (s.q.length : Int)
  · rw [if_pos hg]
    cases hq : s.q.getLast? <;> rfl
  · rw [if_neg hg]

theorem cacheStep_size {α : Type} (s : Cache α) (op : CacheOp α) :
    (Cache.step s op).1.size = s.size := by
  cases op with
  | addOp k d =>
    show (Cache.Add s k d).1.size = s.size
    cases hl : lookup s.cache k with
    | some e => cases hp : e.pinned <;> simp [Cache.Add, hl, hp]
    | none =>
      simp only [Cache.Add, hl]
      exact cacheEvict_size _
  | getOp k =>
    show (Cache.Get s k).1.size = s.size
    cases hl : lookup s.cache k with
    | some e => cases hp : e.pinned <;> simp [Cache.Get, hl, hp]
    | none => simp [Cache.Get, hl]
  | pinOp k =>
    show (Cache.Pin s k).size = s.size
    cases hl : lookup s.cache k with
    | some e => cases hp : e.pinned <;> simp [Cache.Pin, hl, hp]
    | none => simp [Cache.Pin, hl]
  | unpinOp k =>
    show (Cache.Unpin s k).1.size = s.size
    cases hl : lookup s.cache k with
    | some e =>
      cases hp : e.pinned
      · simp [Cache.Unpin, hl, hp]
      · simp only [Cache.Unpin, hl, hp, if_true]
        exact cacheEvict_size _
    | none => simp [Cache.Unpin, hl]

theorem runCache_size {α : Type} (size : Int) (ops : List (CacheOp α)) :
    (runCache α size ops).size = size := by
  suffices h : ∀ (l : List (CacheOp α)) (s : Cache α),
      (l.foldl (fun s op => (Cache.step s op).1) s).size = s.size by
    exact h ops (NewCache α size)
  intro l
  induction l with
  | nil => exact fun s => rfl
  | cons op rest ih =>
    intro s
    rw [List.foldl_cons, ih, cacheStep_size]

/-- Claim C3: for the count-bounded cache with `size ≥ 0`, in every
reachable state the unpinned index entries correspond one-to-one with the
recency queue (same keys, no duplicates on either side), a pinned entry
never appears in the queue, the queue length is at most `size` after every
public call, and `Len()` exceeds `size` at most by the number of pinned
entries. -/
theorem C3_count_invariant {α : Type} (size : Int) (ops : List (CacheOp α))
    (hsize : 0 ≤ size) :
    (∀ k, (∃ e, lookup (runCache α size ops).cache k = some e ∧ e.pinned = false)
        ↔ k ∈ (runCache α size ops).q) ∧
    (runCache α size ops).q.Nodup ∧
    ((runCache α size ops).cache.map Prod.fst).Nodup ∧
    (∀ k e, lookup (runCache α size ops).cache k = some e → e.pinned = true →
      k ∉ (runCache α size ops).q) ∧
    ((runCache α size ops).q.length : Int) ≤ size ∧
    ((runCache α size ops).cache.length : Int)
      ≤ size + ((pinnedKeys (runCache α size ops).cache).length : Int) := by
  have hinv := runCache_inv (α := α) size ops
  set s : Cache α := runCache α size ops with hsdef
  have hiff : ∀ k, (∃ e, lookup s.cache k = some e ∧ e.pinned = false) ↔ k ∈ s.q := by
    intro k
    rw [← mem_unpinnedKeys_iff hinv.nodup]
    exact hinv.perm.mem_iff.symm
  have hqnd : s.q.Nodup := hinv.perm.symm.nodup (unpinnedKeys_nodup hinv.nodup)
  refine ⟨hiff, hqnd, hinv.nodup, ?_, ?_, ?_⟩
  · intro k e hl hp hkq
    obtain ⟨e2, hl2, hp2⟩ := (hiff k).2 hkq
    rw [hl] at hl2
    rw [Option.some.inj hl2] at hp
    rw [hp] at hp2
    exact Bool.true_eq_false.mp hp2
  · have hss : s.size = size := by rw [hsdef]; exact runCache_size size ops
    have hl := hinv.len
    rw [hss, max_eq_left hsize] at hl
    exact hl
  · have h1 : s.q.length = (unpinnedKeys s.cache).length := hinv.perm.length_eq
    have h2 : (unpinnedKeys s.cache).length
        = (s.cache.filter (fun e => !e.2.pinned)).length := List.length_map _ _
    have h3 : (pinnedKeys s.cache).length
        = (s.cache.filter (fun e => e.2.pinned)).length := List.length_map _ _
    have h4 := length_filter_split (fun e => e.2.pinned) s.cache
    have hss : s.size = size := by rw [hsdef]; exact runCache_size size ops
    have h5 := hinv.len
    rw [hss, max_eq_left hsize] at h5
    omega

/-- Witness for C3: three inserts into a size-2 cache keep the queue at two
entries and key `b` present and unpinned. -/
theorem C3_count_invariant_witness :
    ((runCache Nat 2 [CacheOp.addOp "a" (some 1), CacheOp.addOp "b" (some 2),
        CacheOp.addOp "c" (some 3)]).q.length : Int) ≤ 2 ∧
    ((∃ e, lookup (runCache Nat 2 [CacheOp.addOp "a" (some 1), CacheOp.addOp "b" (some 2),
        CacheOp.addOp "c" (some 3)]).cache "b" = some e ∧ e.pinned = false)
      ↔ "b" ∈ (runCache Nat 2 [CacheOp.addOp "a" (some 1), CacheOp.addOp "b" (some 2),
        CacheOp.addOp "c" (some 3)]).q) :=
  ⟨(C3_count_invariant 2 [CacheOp.addOp "a" (some 1), CacheOp.addOp "b" (some 2),
      CacheOp.addOp "c" (some 3)] (by norm_num)).2.2.2.2.1,
   (C3_count_invariant 2 [CacheOp.addOp "a" (some 1), CacheOp.addOp "b" (some 2),
      CacheOp.addOp "c" (some 3)] (by norm_num)).1 "b"⟩

/-- Counterexample to claim C2: on a state whose queue exceeds `size` by
two, `Cache.evict` — the code's eviction step — removes a single entry and
leaves the queue still longer than `size`, whereas the loop the claim
describes would keep removing until the length is at or below `size`.  The
code's eviction is an `if`, not a `while`. -/
theorem C2_counterexample :
    Cache.evict (⟨0, [("a", ⟨none, false⟩), ("b", ⟨none, false⟩)], ["a", "b"]⟩ : Cache Nat)
      ≠ cacheEvictLoop
        (⟨0, [("a", ⟨none, false⟩), ("b", ⟨none, false⟩)], ["a", "b"]⟩ : Cache Nat) ∧
    (Cache.evict
      (⟨0, [("a", ⟨none, false⟩), ("b", ⟨none, false⟩)], ["a", "b"]⟩ : Cache Nat)).1.q
        = ["a"] ∧
    (cacheEvictLoop
      (⟨0, [("a", ⟨none, false⟩), ("b", ⟨none, false⟩)], ["a", "b"]⟩ : Cache Nat)).1.q
        = [] ∧
    (⟨0, [("a", ⟨none, false⟩), ("b", ⟨none, false⟩)], ["a", "b"]⟩ : Cache Nat).size = 0 := by
  refine ⟨?_, by decide, by decide, by decide⟩
  decide

/-- Claim C2 (amended): eviction, triggered after `Add` of a new key and
after `Unpin`, is a single conditional step: if the queue length exceeds
`size`, the one tail entry is removed, deleted from the index, and reported
to the callback.  Because both call sites grow the queue by exactly one
element and every reachable state has queue length at most `size` (for
`size ≥ 0`), the step runs from length at most `size + 1` and restores
length at most `size`; on every such state it coincides with the loop the
spec describes. -/
theorem C2_evict_single_step {α : Type} (s : Cache α) (hsize : 0 ≤ s.size)
    (hlen : (s.q.length : Int) ≤ s.size + 1) :
    Cache.evict s = cacheEvictLoop s ∧
    ((Cache.evict s).1.q.length : Int) ≤ s.size ∧
    ((s.q.length : Int) ≤ s.size → Cache.evict s = (s, [])) ∧
    (s.size < (s.q.length : Int) →
      ∃ b q0, s.q = q0 ++ [b] ∧
        Cache.evict s = ({ s with cache := eraseKey s.cache b, q := q0 }, [b])) := by
  by_cases hg : s.size < (s.q.length : Int)
  · rcases List.eq_nil_or_concat s.q with hq | ⟨q0, b, hq⟩
    · rw [hq] at hg
      simp at hg
      omega
    · rw [List.concat_eq_append] at hq
      have hlast : s.q.getLast? = some b := by rw [hq]; exact List.getLast?_concat q0
      have hdrop : s.q.dropLast = q0 := by rw [hq]; exact List.dropLast_concat
      have hlen0 : s.q.length = q0.length + 1 := by rw [hq]; simp
      have hevict : Cache.evict s
          = ({ s with cache := eraseKey s.cache b, q := q0 }, [b]) := by
        rw [Cache.evict, if_pos hg, hlast, hdrop]
      have haux2 : cacheEvictLoopAux s.size q0.reverse (eraseKey s.cache b)
          = (q0.reverse, eraseKey s.cache b, []) := by
        cases hq0 : q0.reverse with
        | nil => rfl
        | cons x rest =>
          have hq0l : q0.reverse.length = q0.length := List.length_reverse q0
          rw [hq0] at hq0l
          simp only [List.length_cons] at hq0l
          have hnc : ¬ s.size < ((rest.length : Int) + 1) := by omega
          simp only [cacheEvictLoopAux, if_neg hnc]
      have hloop : cacheEvictLoop s
          = ({ s with cache := eraseKey s.cache b, q := q0 }, [b]) := by
        have hrev : s.q.reverse = b :: q0.reverse := by rw [hq]; simp
        have hc1 : s.size < ((q0.reverse.length : Int) + 1) := by
          rw [List.length_reverse]
          omega
        rw [cacheEvictLoop, hrev]
        simp only [cacheEvictLoopAux, if_pos hc1, haux2]
        rw [List.reverse_reverse]
      refine ⟨hevict.trans hloop.symm, ?_, fun h => absurd hg (not_lt.2 h),
        fun _ => ⟨b, q0, hq, hevict⟩⟩
      rw [hevict]
      show ((q0.length : Nat) : Int) ≤ s.size
      omega
  · have hevict : Cache.evict s = (s, []) := by rw [Cache.evict, if_neg hg]
    have haux : cacheEvictLoopAux s.size s.q.reverse s.cache
        = (s.q.reverse, s.cache, []) := by
      cases hrq : s.q.reverse with
      | nil => rfl
      | cons x rest =>
        have hql : s.q.reverse.length = s.q.length := List.length_reverse s.q
        rw [hrq] at hql
        simp only [List.length_cons] at hql
        have hnc : ¬ s.size < ((rest.length : Int) + 1) := by omega
        simp only [cacheEvictLoopAux, if_neg hnc]
    have hloop : cacheEvictLoop s = (s, []) := by
      rw [cacheEvictLoop, haux]
      show ({ size := s.size, cache := s.cache, q := s.q.reverse.reverse }, ([] : List String))
        = (s, [])
      rw [List.reverse_reverse]
    exact ⟨hevict.trans hloop.symm,
      by rw [hevict]; show (s.q.length : Int) ≤ s.size; omega,
      fun _ => hevict,
      fun h => absurd h hg⟩

/-- Witness for the amended C2 at a concrete state: size 1, queue length 2
— one step brings the queue back to one element, matching the loop. -/
theorem C2_evict_single_step_witness :
    Cache.evict (⟨1, [("a", ⟨none, false⟩), ("b", ⟨none, false⟩)], ["a", "b"]⟩ : Cache Nat)
      = cacheEvictLoop
          (⟨1, [("a", ⟨none, false⟩), ("b", ⟨none, false⟩)], ["a", "b"]⟩ : Cache Nat) ∧
    ((Cache.evict
      (⟨1, [("a", ⟨none, false⟩), ("b", ⟨none, false⟩)], ["a", "b"]⟩ : Cache Nat)).1.q.length
        : Int) ≤ 1 :=
  ⟨(C2_evict_single_step
      (⟨1, [("a", ⟨none, false⟩), ("b", ⟨none, false⟩)], ["a", "b"]⟩ : Cache Nat)
      (by norm_num) (by norm_num)).1,
   (C2_evict_single_step
      (⟨1, [("a", ⟨none, false⟩), ("b", ⟨none, false⟩)], ["a", "b"]⟩ : Cache Nat)
      (by norm_num) (by norm_num)).2.1⟩

theorem eq_of_mem_of_fst_eq_nodup {β : Type} {L : List (String × β)}
    (hnd : (L.map Prod.fst).Nodup) {x y : String × β} (hx : x ∈ L) (hy : y ∈ L)
    (h : x.1 = y.1) : x = y := by
  induction L with
  | nil => simp at hx
  | cons e rest ih =>
    rw [List.map_cons, List.nodup_cons] at hnd
    rcases List.mem_cons.1 hx with hx1 | hx1 <;> rcases List.mem_cons.1 hy with hy1 | hy1
    · rw [hx1, hy1]
    · exfalso
      apply hnd.1
      rw [← hx1, h]
      exact List.mem_map_of_mem Prod.fst hy1
    · exfalso
      apply hnd.1
      rw [← hy1, ← h]
      exact List.mem_map_of_mem Prod.fst hx1
    · exact ih hnd.2 hx1 hy1

theorem lookup_setData_self {α : Type} {c : List (String × cacheEntry α)} {k : String}
    {e : cacheEntry α} (h : lookup c k = some e) (d : Option α) :
    lookup (setData c k d) k = some { e with data := d } :=
  lookup_mapEntry_self h _

theorem lookup_segSetData_self {α : Type} {c : List (String × cacheSegmentEntry α)}
    {k : String} {e : cacheSegmentEntry α} (h : lookup c k = some e) (d : Option α) :
    lookup (segSetData c k d) k = some { e with data := d } :=
  lookup_mapEntry_self h _

/-- Counterexample to claim C4: with capacity `10 > 0`, `Add("a", v, 20)`
on the fresh weight-bounded cache evicts `"a"` itself (its weight exceeds
the whole capacity), so the immediately following `Get("a")` returns
`(nil, false)` — eviction of the just-added key is **not** limited to
capacity zero or negative. -/
theorem C4_counterexample :
    (0 : Int) < (NewSegmentCache Nat 10).capacity ∧
    (SegmentCache.Add (NewSegmentCache Nat 10) "a" (some 5) 20).map
        (fun r => (SegmentCache.Get r.1 "a").2) = some (none, false) :=
  ⟨by decide, by decide⟩

/-- Claim C4 (amended): `Add(k, v)` immediately followed by `Get(k)`
returns `(v, true)` unless the `Add` itself evicted `k`.  In the
count-bounded cache this needs only `size > 0` (and the map/queue
consistency every reachable state has).  In the weight-bounded cache a
positive capacity is **not** enough: on a reachable state the round-trip
holds exactly when the supplied weight `w` satisfies `w ≤ capacity`
(together with `w ≥ 0`); an oversized weight evicts the fresh key itself. -/
theorem C4_add_get_roundtrip {α : Type} :
    (∀ (s : Cache α) (k : String) (d : Option α),
      0 < s.size → (lookup s.cache k = none → k ∉ s.q) →
      (Cache.Get (Cache.Add s k d).1 k).2 = (d, true)) ∧
    (∀ (s : SegmentCache α) (k : String) (d : Option α) (w : Int),
      SegInv s → 0 ≤ w → w ≤ s.capacity →
      ∀ r, SegmentCache.Add s k d w = some r →
        (SegmentCache.Get r.1 k).2 = (d, true)) := by
  constructor
  · intro s k d hpos hq
    cases hl : lookup s.cache k with
    | some e =>
      cases hp : e.pinned
      · simp only [Cache.Add, hl, hp, Bool.false_eq_true, if_false]
        simp only [Cache.Get, lookup_setData_self hl d]
      · simp only [Cache.Add, hl, hp, if_true]
        simp only [Cache.Get, lookup_setData_self hl d]
    | none =>
      have hkq : k ∉ s.q := hq hl
      simp only [Cache.Add, hl, Cache.evict]
      split_ifs with hg
      · rcases List.eq_nil_or_concat s.q with hqnil | ⟨q0, b, hq2⟩
        · exfalso
          rw [hqnil] at hg
          simp at hg
          omega
        · rw [List.concat_eq_append] at hq2
          have hlast : (k :: s.q).getLast? = some b := by
            rw [hq2, ← List.cons_append]
            exact List.getLast?_concat _
          have hbq : b ∈ s.q := by
            rw [hq2]
            exact List.mem_append_right _ (List.mem_cons_self _ _)
          have hbk : k ≠ b := fun h => hkq (h ▸ hbq)
          rw [hlast]
          simp [Cache.Get, lookup_eraseKey_ne _ hbk, lookup]
      · simp [Cache.Get, lookup]
  · intro s k d w hs hw hwc r hr
    cases hl : lookup s.cache k with
    | some e =>
      simp only [SegmentCache.Add, hl] at hr
      have hr2 := Option.some.inj hr
      rw [← hr2]
      simp only [SegmentCache.Get, lookup_segSetData_self hl d]
    | none =>
      obtain ⟨pre, rq2, c2, hsplit, heq, hle, hlook, hperm3, hnd3, hqknd, hused1, hpops⟩ :=
        segAdd_new_spec hs k d hl hw
      rw [heq] at hr
      have hr2 := Option.some.inj hr
      have hkpre : k ∉ pre.map Prod.fst := by
        intro hk
        obtain ⟨x, hxpre, hxk⟩ := List.mem_map.1 hk
        have hxrq : x ∈ ((k, w) :: s.q).reverse := by
          rw [hsplit]
          exact List.mem_append_left _ hxpre
        have hkwrq : (k, w) ∈ ((k, w) :: s.q).reverse := by
          rw [List.mem_reverse]
          exact List.mem_cons_self _ _
        have hx : x = (k, w) := eq_of_mem_of_fst_eq_nodup hqknd hxrq hkwrq hxk
        rw [hx] at hxpre
        obtain ⟨pre1, pre2, hpre⟩ := List.append_of_mem hxpre
        have hrq : ((k, w) :: s.q).reverse = pre1 ++ (k, w) :: (pre2 ++ rq2) := by
          rw [hsplit, hpre]
          simp [List.append_assoc]
        have hrqnd : (((k, w) :: s.q).reverse).Nodup := List.Nodup.of_map Prod.fst hqknd
        have hX : pre2 ++ rq2 = [] := by
          by_contra hne
          rcases List.eq_nil_or_concat (pre2 ++ rq2) with h0 | ⟨X0, x2, hX2⟩
          · exact hne h0
          · rw [List.concat_eq_append] at hX2
            have hlast1 : (((k, w) :: s.q).reverse).getLast? = some (k, w) := by
              rw [show ((k, w) :: s.q).reverse = s.q.reverse ++ [(k, w)] by simp]
              exact List.getLast?_concat _
            have hlast2 : (((k, w) :: s.q).reverse).getLast? = some x2 := by
              rw [hrq, hX2]
              rw [show pre1 ++ (k, w) :: (X0 ++ [x2])
                  = (pre1 ++ ((k, w) :: X0)) ++ [x2] by simp]
              exact List.getLast?_concat _
            have hx2 : x2 = (k, w) := by
              rw [hlast1] at hlast2
              exact (Option.some.inj hlast2).symm
            have hsub : ((k, w) :: (pre2 ++ rq2)).Nodup := by
              have hsl : List.Sublist ((k, w) :: (pre2 ++ rq2))
                  (((k, w) :: s.q).reverse) := by
                rw [hrq]
                exact List.sublist_append_right pre1 _
              exact hsl.nodup hrqnd
            have hmem : (k, w) ∈ pre2 ++ rq2 := by
              rw [hX2, hx2]
              simp
            exact (List.nodup_cons.1 hsub).1 hmem
        obtain ⟨hpre2, hrq2⟩ := List.append_eq_nil.1 hX
        have hp := hpops pre1 (k, w) [] (by rw [hpre, hpre2])
        have hrq3 : ((k, w) :: s.q).reverse = pre1 ++ [(k, w)] := by
          rw [hrq, hpre2, hrq2]
          simp
        have hsum := hused1
        rw [hrq3] at hsum
        simp only [List.map_append, List.sum_append, List.map_cons, List.sum_cons,
          List.map_nil, List.sum_nil] at hsum
        omega
      have hlk2 : lookup c2 k = some { data := d, size := w } := by
        rw [hlook k hkpre, lookup]
        simp
      rw [← hr2]
      simp only [SegmentCache.Get, hlk2]

/-- Witness for the amended C4: a fresh add round-trips in the count cache
of size 3, and a weight-4 add against capacity 5 round-trips in the
weight-bounded cache. -/
theorem C4_add_get_roundtrip_witness :
    (Cache.Get (Cache.Add (NewCache Nat 3) "a" (some 7)).1 "a").2 = (some 7, true) ∧
    (SegmentCache.Get ((⟨5, 4, [("a", ⟨some 2, 4⟩)], [("a", 4)]⟩ : SegmentCache Nat)) "a").2
      = (some 2, true) :=
  ⟨(C4_add_get_roundtrip (α := Nat)).1 (NewCache Nat 3) "a" (some 7) (by decide)
      (fun _ => by decide),
   (C4_add_get_roundtrip (α := Nat)).2 (NewSegmentCache Nat 5) "a" (some 2) 4
      ⟨by decide, by decide, by decide, by decide, by decide, by decide⟩
      (by decide) (by decide)
      ((⟨5, 4, [("a", ⟨some 2, 4⟩)], [("a", 4)]⟩ : SegmentCache Nat), ["a"].tail)
      (by decide)⟩

theorem mem_keys_of_mem_q {α : Type} {s : Cache α} (hs : CacheInv s) {b : String}
    (hb : b ∈ s.q) : b ∈ s.cache.map Prod.fst := by
  have h1 : b ∈ unpinnedKeys s.cache := hs.perm.mem_iff.1 hb
  exact ((List.filter_sublist s.cache).map Prod.fst).subset h1

/-- Claim C5: the eviction callback receives exactly one invocation per
evicted entry, carrying that entry's key, in eviction order — tail first —
and (by construction of the model, which returns the invocation list from
the triggering call) every invocation happens before the triggering
`Add`/`Unpin` returns.  For each evicting operation: the emitted keys are
pairwise distinct, are exactly the keys removed from the index by the call,
and in the weight-bounded cache they form a prefix of the reversed queue
(least recently used first); the count-bounded cache emits at most one. -/
theorem C5_callback_contract {α : Type} :
    (∀ (s : Cache α) (k : String) (d : Option α), CacheInv s →
      ∀ s2 ks, Cache.Add s k d = (s2, ks) →
        ks.Nodup ∧ ks.length ≤ 1 ∧
        (∀ b, b ∈ ks ↔
          ((b = k ∨ b ∈ s.cache.map Prod.fst) ∧ b ∉ s2.cache.map Prod.fst))) ∧
    (∀ (s : Cache α) (k : String), CacheInv s →
      ∀ s2 ks, Cache.Unpin s k = (s2, ks) →
        ks.Nodup ∧ ks.length ≤ 1 ∧
        (∀ b, b ∈ ks ↔ (b ∈ s.cache.map Prod.fst ∧ b ∉ s2.cache.map Prod.fst))) ∧
    (∀ (s : SegmentCache α) (k : String) (d : Option α) (w : Int), SegInv s → 0 ≤ w →
      ∀ r, SegmentCache.Add s k d w = some r →
        r.2.Nodup ∧
        (∃ n, r.2 = ((((k, w) :: s.q).reverse.map Prod.fst).take n)) ∧
        (∀ b, b ∈ r.2 ↔
          ((b = k ∨ b ∈ s.cache.map Prod.fst) ∧ b ∉ r.1.cache.map Prod.fst))) := by
  refine ⟨?_, ?_, ?_⟩
  · intro s k d hs s2 ks hadd
    cases hl : lookup s.cache k with
    | some e =>
      have hkmem : k ∈ s.cache.map Prod.fst := by
        by_contra hmem
        rw [← lookup_eq_none_iff] at hmem
        rw [hmem] at hl
        cases hl
      have hks : ks = [] := by
        cases hp : e.pinned <;> simp only [Cache.Add, hl, hp] at hadd <;>
          simp at hadd <;> exact hadd.2
      have hcache : s2.cache = setData s.cache k d := by
        cases hp : e.pinned <;> simp only [Cache.Add, hl, hp] at hadd <;>
          simp at hadd <;> rw [← hadd.1]
      refine ⟨hks ▸ List.nodup_nil, by rw [hks]; decide, ?_⟩
      intro b
      rw [hks, hcache, map_fst_setData]
      simp only [List.not_mem_nil, false_iff]
      rintro ⟨h1 | h1, h2⟩
      · exact h2 (h1 ▸ hkmem)
      · exact h2 h1
    | none =>
      simp only [Cache.Add, hl, Cache.evict] at hadd
      split_ifs at hadd with hg
      · rcases List.eq_nil_or_concat (k :: s.q) with h0 | ⟨q0, b0, hq2⟩
        · cases h0
        · rw [List.concat_eq_append] at hq2
          have hlast : (k :: s.q).getLast? = some b0 := by
            rw [hq2]
            exact List.getLast?_concat _
          rw [hlast] at hadd
          have hks : ks = [b0] := (congrArg Prod.snd hadd).symm
          have hcache : s2.cache
              = eraseKey ((k, { data := d, pinned := false }) :: s.cache) b0 :=
            (congrArg (fun p => p.1.cache) hadd).symm
          have hb0 : b0 ∈ k :: s.q := by
            rw [hq2]
            exact List.mem_append_right _ (List.mem_cons_self _ _)
          refine ⟨hks ▸ List.nodup_singleton b0, by simp [hks], ?_⟩
          intro b
          rw [hks, hcache]
          constructor
          · intro hbmem
            rw [List.mem_singleton] at hbmem
            subst hbmem
            constructor
            · rcases List.mem_cons.1 hb0 with h1 | h1
              · exact Or.inl h1
              · exact Or.inr (mem_keys_of_mem_q hs h1)
            · intro hmem
              exact (mem_map_fst_eraseKey hmem).2 rfl
          · rintro ⟨h1, h2⟩
            rw [List.mem_singleton]
            by_contra hne
            apply h2
            apply mem_map_fst_eraseKey_of_ne _ hne
            rw [List.map_cons, List.mem_cons]
            rcases h1 with h1 | h1
            · exact Or.inl h1
            · exact Or.inr h1
      · have hks : ks = [] := (congrArg Prod.snd hadd).symm
        have hcache : s2.cache = (k, { data := d, pinned := false }) :: s.cache :=
          (congrArg (fun p => p.1.cache) hadd).symm
        refine ⟨hks ▸ List.nodup_nil, by rw [hks]; decide, ?_⟩
        intro b
        rw [hks, hcache]
        simp only [List.not_mem_nil, false_iff, List.map_cons, List.mem_cons]
        rintro ⟨h1 | h1, h2⟩
        · exact h2 (Or.inl h1)
        · exact h2 (Or.inr h1)
  · intro s k hs s2 ks hunpin
    cases hl : lookup s.cache k with
    | some e =>
      have hkmem : k ∈ s.cache.map Prod.fst := by
        by_contra hmem
        rw [← lookup_eq_none_iff] at hmem
        rw [hmem] at hl
        cases hl
      cases hp : e.pinned
      · simp only [Cache.Unpin, hl, hp, Bool.false_eq_true, if_false] at hunpin
        have hks : ks = [] := (congrArg Prod.snd hunpin).symm
        have hst : s2 = s := (congrArg Prod.fst hunpin).symm
        refine ⟨hks ▸ List.nodup_nil, by rw [hks]; decide, ?_⟩
        intro b
        rw [hks, hst]
        simp only [List.not_mem_nil, false_iff]
        rintro ⟨h1, h2⟩
        exact h2 h1
      · simp only [Cache.Unpin, hl, hp, if_true, Cache.evict] at hunpin
        split_ifs at hunpin with hg
        · rcases List.eq_nil_or_concat (k :: s.q) with h0 | ⟨q0, b0, hq2⟩
          · cases h0
          · rw [List.concat_eq_append] at hq2
            have hlast : (k :: s.q).getLast? = some b0 := by
              rw [hq2]
              exact List.getLast?_concat _
            rw [hlast] at hunpin
            have hks : ks = [b0] := (congrArg Prod.snd hunpin).symm
            have hcache : s2.cache = eraseKey (setPinned s.cache k false) b0 :=
              (congrArg (fun p => p.1.cache) hunpin).symm
            have hb0 : b0 ∈ k :: s.q := by
              rw [hq2]
              exact List.mem_append_right _ (List.mem_cons_self _ _)
            have hb0keys : b0 ∈ s.cache.map Prod.fst := by
              rcases List.mem_cons.1 hb0 with h1 | h1
              · exact h1 ▸ hkmem
              · exact mem_keys_of_mem_q hs h1
            refine ⟨hks ▸ List.nodup_singleton b0, by simp [hks], ?_⟩
            intro b
            rw [hks, hcache]
            constructor
            · intro hbmem
              rw [List.mem_singleton] at hbmem
              subst hbmem
              refine ⟨hb0keys, ?_⟩
              intro hmem
              exact (mem_map_fst_eraseKey hmem).2 rfl
            · rintro ⟨h1, h2⟩
              rw [List.mem_singleton]
              by_contra hne
              apply h2
              apply mem_map_fst_eraseKey_of_ne _ hne
              rw [map_fst_setPinned]
              exact h1
        · have hks : ks = [] := (congrArg Prod.snd hunpin).symm
          have hcache : s2.cache = setPinned s.cache k false :=
            (congrArg (fun p => p.1.cache) hunpin).symm
          refine ⟨hks ▸ List.nodup_nil, by rw [hks]; decide, ?_⟩
          intro b
          rw [hks, hcache, map_fst_setPinned]
          simp only [List.not_mem_nil, false_iff]
          rintro ⟨h1, h2⟩
          exact h2 h1
    | none =>
      simp only [Cache.Unpin, hl] at hunpin
      have hks : ks = [] := (congrArg Prod.snd hunpin).symm
      have hst : s2 = s := (congrArg Prod.fst hunpin).symm
      refine ⟨hks ▸ List.nodup_nil, by rw [hks]; decide, ?_⟩
      intro b
      rw [hks, hst]
      simp only [List.not_mem_nil, false_iff]
      rintro ⟨h1, h2⟩
      exact h2 h1
  · intro s k d w hs hw r hr
    cases hl : lookup s.cache k with
    | some e =>
      have hkmem : k ∈ s.cache.map Prod.fst := by
        by_contra hmem
        rw [← lookup_eq_none_iff] at hmem
        rw [hmem] at hl
        cases hl
      simp only [SegmentCache.Add, hl] at hr
      have hr2 := Option.some.inj hr
      have hks : r.2 = [] := (congrArg Prod.snd hr2).symm
      have hcache : r.1.cache = segSetData s.cache k d :=
        (congrArg (fun p => p.1.cache) hr2).symm
      refine ⟨hks ▸ List.nodup_nil, ⟨0, by rw [hks]; rfl⟩, ?_⟩
      intro b
      rw [hks, hcache]
      have hfst : (segSetData s.cache k d).map Prod.fst = s.cache.map Prod.fst :=
        map_fst_mapEntry s.cache k _
      rw [hfst]
      simp only [List.not_mem_nil, false_iff]
      rintro ⟨h1 | h1, h2⟩
      · exact h2 (h1 ▸ hkmem)
      · exact h2 h1
    | none =>
      obtain ⟨pre, rq2, c2, hsplit, heq, hle, hlook, hperm3, hnd3, hqknd, hused1, hpops⟩ :=
        segAdd_new_spec hs k d hl hw
      rw [heq] at hr
      have hr2 := Option.some.inj hr
      have hks : r.2 = pre.map Prod.fst := (congrArg Prod.snd hr2).symm
      have hcache : r.1.cache = c2 := (congrArg (fun p => p.1.cache) hr2).symm
      have hmapsplit : (((k, w) :: s.q).reverse).map Prod.fst
          = pre.map Prod.fst ++ rq2.map Prod.fst := by
        rw [hsplit, List.map_append]
      have hkperm : ((((k, w) :: s.q).reverse).map Prod.fst).Perm
          (k :: s.cache.map Prod.fst) := by
        have h1 : ((((k, w) :: s.q).reverse).map Prod.fst).Perm
            (((k, w) :: s.q).map Prod.fst) := (List.reverse_perm _).map Prod.fst
        have h2 : ((k, w) :: s.q).map Prod.fst = k :: s.q.map Prod.fst := rfl
        have h3 : (s.q.map Prod.fst).Perm (s.cache.map Prod.fst) := by
          have h4 := (hs.perm.map Prod.fst).symm
          rw [map_fst_map_segKS] at h4
          exact h4
        exact (h1.trans (h2 ▸ (h3.cons k)))
      have hc2keys : ((c2.map Prod.fst)).Perm (rq2.map Prod.fst) := by
        have h1 := hperm3.map Prod.fst
        rw [map_fst_map_segKS] at h1
        exact h1
      refine ⟨?_, ⟨(pre.map Prod.fst).length, ?_⟩, ?_⟩
      · rw [hks]
        have hsl : List.Sublist (pre.map Prod.fst)
            ((((k, w) :: s.q).reverse).map Prod.fst) := by
          rw [hmapsplit]
          exact List.sublist_append_left _ _
        exact hsl.nodup hqknd
      · rw [hks, hmapsplit, List.take_left]
      · intro b
        rw [hks, hcache]
        constructor
        · intro hb
          have hbrq : b ∈ (((k, w) :: s.q).reverse).map Prod.fst := by
            rw [hmapsplit]
            exact List.mem_append_left _ hb
          constructor
          · have := hkperm.mem_iff.1 hbrq
            rcases List.mem_cons.1 this with h1 | h1
            · exact Or.inl h1
            · exact Or.inr h1
          · intro hbc2
            have hbrq2 : b ∈ rq2.map Prod.fst := hc2keys.mem_iff.1 hbc2
            have hdisj : (pre.map Prod.fst).Disjoint (rq2.map Prod.fst) :=
              List.disjoint_of_nodup_append (hmapsplit ▸ hqknd)
            exact hdisj hb hbrq2
        · rintro ⟨h1, h2⟩
          by_contra hbpre
          apply h2
          have hlkb : lookup c2 b
              = lookup ((k, { data := d, size := w }) :: s.cache) b := hlook b hbpre
          have hbk1 : b ∈ ((k, { data := d, size := w }) :: s.cache).map Prod.fst := by
            rw [List.map_cons, List.mem_cons]
            rcases h1 with h1 | h1
            · exact Or.inl h1
            · exact Or.inr h1
          by_contra hbc2
          rw [← lookup_eq_none_iff] at hbc2
          rw [hbc2] at hlkb
          exact (lookup_eq_none_iff _ _).1 hlkb.symm hbk1

/-- Witness for C5 at concrete inputs: a count-cache `Add` that evicts the
tail key `x`, and an oversized weight-cache `Add` that evicts the fresh key
itself; both emitted callback lists are duplicate-free. -/
theorem C5_callback_contract_witness :
    (["x"] : List String).Nodup ∧ (["a"] : List String).Nodup :=
  ⟨((C5_callback_contract (α := Nat)).1 (⟨1, [("x", ⟨some 1, false⟩)], ["x"]⟩ : Cache Nat)
      "y" (some 2) ⟨by decide, by decide, by decide⟩
      (⟨1, [("y", ⟨some 2, false⟩)], ["y"]⟩ : Cache Nat) ["x"] (by decide)).1,
   ((C5_callback_contract (α := Nat)).2.2 (NewSegmentCache Nat 3) "a" (some 1) 5
      ⟨by decide, by decide, by decide, by decide, by decide, by decide⟩ (by decide)
      ((⟨3, 0, [], []⟩ : SegmentCache Nat), ["a"]) (by decide)).1⟩

end LRU
